import Mathlib

set_option autoImplicit false

namespace Amoeba

/-! Configuration constants, from include/config.h. -/

def LINEBUFFER : Nat := 100
def CMDMAX : Nat := 10
def CMDMIN : Nat := 1
def SRCHMIN : Int := 1
def SRCHMAX : Int := 100
def IDX_TERMINATOR : Int := -1
def REWARD : Int := 10
def PENALTY : Int := 1
def TREND_WINDOW_SIZE : Nat := 10
def REDUNDANCY_THRESHOLD : ℚ := 75
def STORE_REDUNDANT : Bool := true
def RUNTIME : Nat := 10
def KILL_ATTEMPTS : Nat := 3

/-- CLAMP macro from config.h: ((x) < (lo)) ? (lo) : ( ((x) > (hi)) ? (hi) : (x) ). -/
def clampInt (x lo hi : Int) : Int := if x < lo then lo else if hi < x then hi else x

/-! Sparse association map, from src/assoc.c.  Machine integers are modelled
as `Int` / `Nat` with explicit reductions mod 2^32 / 2^64 in the hash. -/

structure AssocEntry where
  i : Int
  pi : Int
  k : Int
  pk : Int
  val : Int
  deriving DecidableEq, Repr

/-- Cast of a C int to uint32_t (two's complement): value mod 2^32. -/
def u32 (x : Int) : Nat := (x % (2 ^ 32 : Int)).toNat

/-- mix64 from assoc.c: xor-shift / multiply rounds on 64-bit values. -/
def mix64 (x : Nat) : Nat :=
  let x1 := x ^^^ (x >>> 33)
  let x2 := (x1 * 0xff51afd7ed558ccd) % 2 ^ 64
  let x3 := x2 ^^^ (x2 >>> 33)
  let x4 := (x3 * 0xc4ceb9fe1a85ec53) % 2 ^ 64
  x4 ^^^ (x4 >>> 33)

/-- hkey from assoc.c: combine the 4-tuple into a 64-bit hash. -/
def hkey (i pi k pk : Int) : Nat :=
  let x0 : Nat := 0x9e3779b97f4a7c15
  let x1 := mix64 (x0 ^^^ u32 i)
  let x2 := mix64 (x1 ^^^ u32 pi)
  let x3 := mix64 (x2 ^^^ u32 k)
  mix64 (x3 ^^^ u32 pk)

structure Assoc where
  buckets : List (List AssocEntry)
  nbuckets : Nat
  nentries : Nat
  deriving DecidableEq, Repr

/-- Bucket index: hkey(...) & (nbuckets - 1). -/
def bidx (nb : Nat) (i pi k pk : Int) : Nat := hkey i pi k pk &&& (nb - 1)

/-- keys_equal from assoc.c. -/
def keyMatch (e : AssocEntry) (i pi k pk : Int) : Bool :=
  e.i == i && e.pi == pi && e.k == k && e.pk == pk

/-- Chain walk of assoc_get: value of the first matching entry, else 0. -/
def chainGet : List AssocEntry → Int → Int → Int → Int → Int
  | [], _, _, _, _ => 0
  | e :: es, i, pi, k, pk => if keyMatch e i pi k pk then e.val else chainGet es i pi k pk

def chainContains : List AssocEntry → Int → Int → Int → Int → Bool
  | [], _, _, _, _ => false
  | e :: es, i, pi, k, pk => keyMatch e i pi k pk || chainContains es i pi k pk

/-- Chain walk of assoc_add when the key is present: add delta to the first
matching entry, deleting it when the new value is zero. -/
def chainUpdate : List AssocEntry → Int → Int → Int → Int → Int → List AssocEntry
  | [], _, _, _, _, _ => []
  | e :: es, i, pi, k, pk, delta =>
      if keyMatch e i pi k pk then
        if e.val + delta = 0 then es else { e with val := e.val + delta } :: es
      else e :: chainUpdate es i pi k pk delta

/-- One step of the rehash loop in resize: prepend the entry onto its new bucket. -/
def insertEntry (nb : List (List AssocEntry)) (e : AssocEntry) : List (List AssocEntry) :=
  nb.set (bidx nb.length e.i e.pi e.k e.pk)
    (e :: nb.getD (bidx nb.length e.i e.pi e.k e.pk) [])

/-- resize from assoc.c (allocation always succeeds in the model). -/
def resize (a : Assoc) (newcap : Nat) : Assoc :=
  { buckets := a.buckets.flatten.foldl insertEntry (List.replicate newcap []),
    nbuckets := newcap,
    nentries := a.nentries }

/-- Body of assoc_add after the load-factor check: locate the chain, update or
delete the matching entry, or prepend a fresh one. -/
def assoc_add_core (a1 : Assoc) (i pi k pk delta : Int) : Assoc :=
  let idx := bidx a1.nbuckets i pi k pk
  let chain := a1.buckets.getD idx []
  if chainContains chain i pi k pk then
    { a1 with buckets := a1.buckets.set idx (chainUpdate chain i pi k pk delta),
              nentries := if chainGet chain i pi k pk + delta = 0 then
                            a1.nentries - 1
                          else a1.nentries }
  else
    { a1 with buckets := a1.buckets.set idx (⟨i, pi, k, pk, delta⟩ :: chain),
              nentries := a1.nentries + 1 }

/-- assoc_add from assoc.c: no-op for delta 0, resize above load factor 0.75,
then in-chain update with deletion on zero, or insertion. -/
def assoc_add (a : Assoc) (i pi k pk delta : Int) : Assoc :=
  if a.buckets = [] ∨ delta = 0 then a
  else
    assoc_add_core
      (if (a.nentries + 1) * 4 > a.nbuckets * 3 then
        resize a (if a.nbuckets = 0 then 1024 else a.nbuckets * 2)
      else a) i pi k pk delta

/-- assoc_get from assoc.c. -/
def assoc_get (a : Assoc) (i pi k pk : Int) : Int :=
  if a.buckets = [] then 0
  else chainGet (a.buckets.getD (bidx a.nbuckets i pi k pk) []) i pi k pk

/-- Doubling loop of round_up_pow2; the fuel bounds the iteration count and is
never exhausted since doubling 1 at least x times exceeds x. -/
def round_up_pow2Aux (x : Nat) : Nat → Nat → Nat
  | 0, p => p
  | Nat.succ fuel, p => if p < x then round_up_pow2Aux x fuel (p * 2) else p

/-- round_up_pow2 from assoc.c: p = 1; while (p < x) p <<= 1; return p ? p : 1. -/
def round_up_pow2 (x : Nat) : Nat := round_up_pow2Aux x x 1

/-- assoc_init from assoc.c (hint 0 means the default 1024 buckets). -/
def assoc_init (nbuckets_hint : Nat) : Assoc :=
  let cap := round_up_pow2 (if nbuckets_hint = 0 then 1024 else nbuckets_hint)
  { buckets := List.replicate cap [], nbuckets := cap, nentries := 0 }

/-- Entries yielded by a full traversal with assoc_iter_next: buckets in order,
each chain head to tail. -/
def allEntries (a : Assoc) : List AssocEntry := a.buckets.flatten

def keyOf (e : AssocEntry) : Int × Int × Int × Int := (e.i, e.pi, e.k, e.pk)

/-- Key present in some bucket (equivalently: yielded by iteration). -/
def assocHasKey (a : Assoc) (i pi k pk : Int) : Bool :=
  (allEntries a).any (fun e => keyMatch e i pi k pk)

/-- Structural invariant of the open hash table maintained by assoc.c: the
bucket array is non-empty and of the recorded size, every entry sits in the
bucket its hash selects, keys are unique, and no entry stores value 0. -/
structure AssocWF (a : Assoc) : Prop where
  len_eq : a.buckets.length = a.nbuckets
  pos : 0 < a.nbuckets
  placed : ∀ b, b < a.buckets.length → ∀ e ∈ a.buckets.getD b [], bidx a.nbuckets e.i e.pi e.k e.pk = b
  distinct : (allEntries a).Pairwise (fun e1 e2 => keyOf e1 ≠ keyOf e2)
  nonzero : ∀ e ∈ allEntries a, e.val ≠ 0

example : assoc_get (assoc_add (assoc_init 1) 1 2 3 4 7) 1 2 3 4 = 7 := by decide

example : assoc_get (assoc_add (assoc_add (assoc_init 1) 1 2 3 4 7) 1 2 3 4 (-7)) 1 2 3 4 = 0 := by
  decide

/-! General list helpers used to reason about the bucket array. -/

theorem list_set_decomp {α : Type} (l : List α) (n : Nat) (v : α) (h : n < l.length) :
    l.set n v = l.take n ++ v :: l.drop (n + 1) := by
  induction l generalizing n with
  | nil => simp at h
  | cons x xs ih =>
    cases n with
    | zero => simp
    | succ m =>
      simp only [List.set, List.take, List.drop, List.cons_append, List.cons.injEq, true_and]
      exact ih m (by simpa using h)

theorem list_getD_decomp {α : Type} (l : List α) (n : Nat) (d : α) (h : n < l.length) :
    l = l.take n ++ l.getD n d :: l.drop (n + 1) := by
  conv_lhs => rw [← List.take_append_drop n l]
  rw [List.drop_eq_getElem_cons h, List.getD_eq_getElem l d h]

theorem list_getD_set_self {α : Type} (l : List α) (n : Nat) (v d : α) (h : n < l.length) :
    (l.set n v).getD n d = v := by
  simp [List.getD_eq_getElem?_getD, List.getElem?_set, h]

theorem list_getD_set_ne {α : Type} (l : List α) (n m : Nat) (v d : α) (h : n ≠ m) :
    (l.set n v).getD m d = l.getD m d := by
  simp [List.getD_eq_getElem?_getD, List.getElem?_set, h]

theorem list_getD_mem {α : Type} (l : List α) (n : Nat) (d : α) (h : n < l.length) :
    l.getD n d ∈ l := by
  rw [List.getD_eq_getElem l d h]
  exact List.getElem_mem h

theorem flatten_set_decomp {α : Type} (L : List (List α)) (n : Nat) (v : List α)
    (h : n < L.length) :
    (L.set n v).flatten = (L.take n).flatten ++ v ++ (L.drop (n + 1)).flatten := by
  rw [list_set_decomp L n v h]
  simp [List.flatten_append, List.append_assoc]

theorem flatten_decomp {α : Type} (L : List (List α)) (n : Nat) (h : n < L.length) :
    L.flatten = (L.take n).flatten ++ L.getD n [] ++ (L.drop (n + 1)).flatten := by
  conv_lhs => rw [list_getD_decomp L n [] h]
  simp [List.flatten_append, List.append_assoc]

/-! Chain-level lemmas for the separate-chaining operations. -/

theorem keyMatch_true_iff (e : AssocEntry) (i pi k pk : Int) :
    keyMatch e i pi k pk = true ↔ keyOf e = (i, pi, k, pk) := by
  simp [keyMatch, keyOf, Prod.ext_iff, and_assoc]

theorem bidx_congr (nb : Nat) (x y : AssocEntry) (h : keyOf x = keyOf y) :
    bidx nb x.i x.pi x.k x.pk = bidx nb y.i y.pi y.k y.pk := by
  simp only [keyOf, Prod.mk.injEq] at h
  rw [h.1, h.2.1, h.2.2.1, h.2.2.2]

theorem bidx_lt (nb : Nat) (i pi k pk : Int) (h : 0 < nb) : bidx nb i pi k pk < nb :=
  Nat.lt_of_le_of_lt (Nat.and_le_right) (Nat.sub_lt h Nat.one_pos)

theorem chainContains_eq_true_iff (l : List AssocEntry) (i pi k pk : Int) :
    chainContains l i pi k pk = true ↔ ∃ e ∈ l, keyOf e = (i, pi, k, pk) := by
  induction l with
  | nil => simp [chainContains]
  | cons e es ih => simp [chainContains, ih, keyMatch_true_iff]

theorem chainContains_eq_false_iff (l : List AssocEntry) (i pi k pk : Int) :
    chainContains l i pi k pk = false ↔ ∀ e ∈ l, keyOf e ≠ (i, pi, k, pk) := by
  rw [← Bool.not_eq_true, chainContains_eq_true_iff]
  simp

theorem chainGet_eq_zero (l : List AssocEntry) (i pi k pk : Int)
    (h : ∀ e ∈ l, keyOf e ≠ (i, pi, k, pk)) : chainGet l i pi k pk = 0 := by
  induction l with
  | nil => rfl
  | cons e es ih =>
    rw [chainGet, if_neg, ih (fun x hx => h x (List.mem_cons_of_mem e hx))]
    intro hm
    exact h e (List.mem_cons_self e es) ((keyMatch_true_iff e i pi k pk).mp hm)

theorem chainGet_append (l1 l2 : List AssocEntry) (i pi k pk : Int) :
    chainGet (l1 ++ l2) i pi k pk =
      if chainContains l1 i pi k pk then chainGet l1 i pi k pk else chainGet l2 i pi k pk := by
  induction l1 with
  | nil => simp [chainContains, chainGet]
  | cons e es ih =>
    by_cases hm : keyMatch e i pi k pk
    · simp [chainGet, chainContains, hm]
    · simp [chainGet, chainContains, hm, ih]

theorem chainGet_eq_filter (l : List AssocEntry) (i pi k pk : Int) :
    chainGet l i pi k pk =
      match l.filter (fun e => keyMatch e i pi k pk) with
      | [] => (0 : Int)
      | e :: _ => e.val := by
  induction l with
  | nil => rfl
  | cons e es ih =>
    by_cases hm : keyMatch e i pi k pk
    · simp [chainGet, List.filter_cons, hm]
    · simp [chainGet, List.filter_cons, hm, ih]

theorem filter_key_eq_nil (l : List AssocEntry) (i pi k pk : Int)
    (h : ∀ e ∈ l, keyOf e ≠ (i, pi, k, pk)) :
    l.filter (fun e => keyMatch e i pi k pk) = [] := by
  rw [List.filter_eq_nil_iff]
  intro e he hm
  exact h e he ((keyMatch_true_iff e i pi k pk).mp hm)

theorem filter_key_eq_single (l : List AssocEntry)
    (hpw : l.Pairwise (fun x y => keyOf x ≠ keyOf y)) (x : AssocEntry) (hx : x ∈ l)
    (i pi k pk : Int) (hkey : keyOf x = (i, pi, k, pk)) :
    l.filter (fun e => keyMatch e i pi k pk) = [x] := by
  induction l with
  | nil => simp at hx
  | cons e es ih =>
    rcases List.pairwise_cons.mp hpw with ⟨hhead, htail⟩
    rcases List.mem_cons.mp hx with rfl | hx2
    · rw [List.filter_cons, if_pos (by rw [keyMatch_true_iff]; exact hkey)]
      rw [filter_key_eq_nil es i pi k pk]
      intro y hy
      rw [← hkey]
      exact fun hc => hhead y hy hc.symm
    · have hne : ¬ keyMatch e i pi k pk = true := by
        rw [keyMatch_true_iff]
        intro hc
        exact hhead x hx2 (hc.trans hkey.symm)
      rw [List.filter_cons, if_neg hne]
      exact ih htail hx2

theorem chainGet_perm (l1 l2 : List AssocEntry) (hp : l1.Perm l2)
    (hpw : l1.Pairwise (fun x y => keyOf x ≠ keyOf y)) (i pi k pk : Int) :
    chainGet l1 i pi k pk = chainGet l2 i pi k pk := by
  rw [chainGet_eq_filter, chainGet_eq_filter]
  have hfp : (l1.filter (fun e => keyMatch e i pi k pk)).Perm
      (l2.filter (fun e => keyMatch e i pi k pk)) := hp.filter _
  cases hf : l1.filter (fun e => keyMatch e i pi k pk) with
  | nil =>
    rw [hf] at hfp
    rw [hfp.symm.eq_nil]
  | cons x t =>
    have hmemf : x ∈ l1.filter (fun e => keyMatch e i pi k pk) := by
      rw [hf]
      exact List.mem_cons_self x t
    have hx : x ∈ l1 := (List.mem_filter.mp hmemf).1
    have hxk : keyMatch x i pi k pk = true := (List.mem_filter.mp hmemf).2
    have hsingle : l1.filter (fun e => keyMatch e i pi k pk) = [x] :=
      filter_key_eq_single l1 hpw x hx i pi k pk ((keyMatch_true_iff x i pi k pk).mp hxk)
    rw [hf] at hsingle
    cases hsingle
    rw [hf] at hfp
    rw [List.perm_singleton.mp hfp.symm]

/-- The chain selected by assoc_get sees every relevant entry: buckets other
than a designated one contain no entry with the queried key, so the walk over
the full iteration order agrees with the walk over that bucket. -/
theorem chainGet_flatten_of_bucket (L : List (List AssocEntry)) (j : Nat)
    (hj : j < L.length) (i pi k pk : Int)
    (hother : ∀ b, b < L.length → b ≠ j → ∀ e ∈ L.getD b [], keyOf e ≠ (i, pi, k, pk)) :
    chainGet L.flatten i pi k pk = chainGet (L.getD j []) i pi k pk := by
  induction L generalizing j with
  | nil => simp at hj
  | cons C R ih =>
    cases j with
    | zero =>
      have hR : ∀ e ∈ R.flatten, keyOf e ≠ (i, pi, k, pk) := by
        intro e he
        rcases List.mem_flatten.mp he with ⟨l, hl, hel⟩
        rcases List.getElem_of_mem hl with ⟨b, hb, hbl⟩
        exact hother (b + 1) (by simpa using Nat.succ_lt_succ hb) (Nat.succ_ne_zero b) e
          (by rw [List.getD_cons_succ, List.getD_eq_getElem R [] hb, hbl]; exact hel)
      rw [List.flatten_cons, chainGet_append]
      by_cases hc : chainContains C i pi k pk
      · simp [hc]
      · simp only [hc, if_false, Bool.false_eq_true]
        rw [chainGet_eq_zero R.flatten i pi k pk hR, List.getD_cons_zero]
        rw [chainGet_eq_zero C i pi k pk]
        rw [← chainContains_eq_false_iff]
        exact Bool.not_eq_true _ ▸ hc
    | succ j2 =>
      have hC : ∀ e ∈ C, keyOf e ≠ (i, pi, k, pk) := by
        intro e he
        exact hother 0 (Nat.succ_pos _) (Nat.succ_ne_zero j2).symm e (by simpa using he)
      rw [List.flatten_cons, chainGet_append, if_neg, List.getD_cons_succ]
      · refine ih j2 (by simpa using hj) ?_
        intro b hb hbj e he
        exact hother (b + 1) (by simpa using Nat.succ_lt_succ hb)
          (fun hc => hbj (Nat.succ_injective hc)) e (by rwa [List.getD_cons_succ])
      · rw [Bool.not_eq_true, chainContains_eq_false_iff]
        exact hC

/-- assoc_get reads the value recorded in the full iteration order whenever the
placement invariant holds. -/
theorem assoc_get_eq_flatten (a : Assoc) (hlen : a.buckets.length = a.nbuckets)
    (hpos : 0 < a.nbuckets)
    (hplaced : ∀ b, b < a.buckets.length → ∀ e ∈ a.buckets.getD b [],
      bidx a.nbuckets e.i e.pi e.k e.pk = b)
    (i pi k pk : Int) :
    assoc_get a i pi k pk = chainGet (allEntries a) i pi k pk := by
  have hne : a.buckets ≠ [] := by
    intro hnil
    rw [hnil] at hlen
    simp at hlen
    omega
  rw [assoc_get, if_neg hne, allEntries]
  rw [chainGet_flatten_of_bucket a.buckets (bidx a.nbuckets i pi k pk)
    (hlen ▸ bidx_lt a.nbuckets i pi k pk hpos) i pi k pk]
  intro b hb hbne e he hkey
  apply hbne
  rw [← hplaced b hb e he, bidx_congr a.nbuckets e ⟨i, pi, k, pk, 0⟩ hkey]

/-! Lemmas about resize. -/

theorem length_insertEntry (nb : List (List AssocEntry)) (e : AssocEntry) :
    (insertEntry nb e).length = nb.length := by
  simp [insertEntry]

theorem length_foldl_insertEntry (es : List AssocEntry) (nb : List (List AssocEntry)) :
    (es.foldl insertEntry nb).length = nb.length := by
  induction es generalizing nb with
  | nil => rfl
  | cons e es ih => rw [List.foldl_cons, ih, length_insertEntry]

theorem flatten_insertEntry_perm (nb : List (List AssocEntry)) (e : AssocEntry)
    (h : 0 < nb.length) : (insertEntry nb e).flatten.Perm (e :: nb.flatten) := by
  have hidx : bidx nb.length e.i e.pi e.k e.pk < nb.length := bidx_lt _ _ _ _ _ h
  rw [insertEntry, flatten_set_decomp _ _ _ hidx]
  conv_rhs => rw [flatten_decomp nb (bidx nb.length e.i e.pi e.k e.pk) hidx]
  have h1 : (nb.take (bidx nb.length e.i e.pi e.k e.pk)).flatten ++
      (e :: nb.getD (bidx nb.length e.i e.pi e.k e.pk) []) ++
      (nb.drop (bidx nb.length e.i e.pi e.k e.pk + 1)).flatten =
      (nb.take (bidx nb.length e.i e.pi e.k e.pk)).flatten ++
      e :: (nb.getD (bidx nb.length e.i e.pi e.k e.pk) [] ++
        (nb.drop (bidx nb.length e.i e.pi e.k e.pk + 1)).flatten) := by
    simp [List.append_assoc]
  have h2 : (nb.take (bidx nb.length e.i e.pi e.k e.pk)).flatten ++
      nb.getD (bidx nb.length e.i e.pi e.k e.pk) [] ++
      (nb.drop (bidx nb.length e.i e.pi e.k e.pk + 1)).flatten =
      (nb.take (bidx nb.length e.i e.pi e.k e.pk)).flatten ++
      (nb.getD (bidx nb.length e.i e.pi e.k e.pk) [] ++
        (nb.drop (bidx nb.length e.i e.pi e.k e.pk + 1)).flatten) := by
    simp [List.append_assoc]
  rw [h1, h2]
  exact List.perm_middle

theorem flatten_foldl_insertEntry_perm (es : List AssocEntry) (nb : List (List AssocEntry))
    (h : 0 < nb.length) : (es.foldl insertEntry nb).flatten.Perm (es ++ nb.flatten) := by
  induction es generalizing nb with
  | nil => simp
  | cons e es ih =>
    rw [List.foldl_cons]
    have h1 : 0 < (insertEntry nb e).length := by rw [length_insertEntry]; exact h
    refine (ih (insertEntry nb e) h1).trans ?_
    refine (List.Perm.append_left es (flatten_insertEntry_perm nb e h)).trans ?_
    exact List.perm_middle

theorem getD_replicate_nil (n b : Nat) :
    (List.replicate n ([] : List AssocEntry)).getD b [] = [] := by
  rcases Nat.lt_or_ge b n with hb | hb
  · rw [List.getD_eq_getElem _ _ (by simpa using hb), List.getElem_replicate]
  · exact List.getD_eq_default _ _ (by simpa using hb)

theorem placed_insertEntry (nb : List (List AssocEntry)) (e : AssocEntry)
    (h : ∀ b, b < nb.length → ∀ x ∈ nb.getD b [], bidx nb.length x.i x.pi x.k x.pk = b) :
    ∀ b, b < nb.length → ∀ x ∈ (insertEntry nb e).getD b [],
      bidx nb.length x.i x.pi x.k x.pk = b := by
  intro b hb x hx
  by_cases hbeq : bidx nb.length e.i e.pi e.k e.pk = b
  · rw [insertEntry, hbeq, list_getD_set_self _ _ _ _ (hbeq ▸ hb)] at hx
    rcases List.mem_cons.mp hx with rfl | hx2
    · exact hbeq
    · exact h b hb x hx2
  · rw [insertEntry, list_getD_set_ne _ _ _ _ _ hbeq] at hx
    exact h b hb x hx

theorem placed_foldl_insertEntry (es : List AssocEntry) (nb : List (List AssocEntry))
    (h : ∀ b, b < nb.length → ∀ x ∈ nb.getD b [], bidx nb.length x.i x.pi x.k x.pk = b) :
    ∀ b, b < nb.length → ∀ x ∈ (es.foldl insertEntry nb).getD b [],
      bidx nb.length x.i x.pi x.k x.pk = b := by
  induction es generalizing nb with
  | nil => exact h
  | cons e es ih =>
    intro b hb x hx
    rw [List.foldl_cons] at hx
    have hlen := length_insertEntry nb e
    have := ih (insertEntry nb e) (by rw [hlen]; exact placed_insertEntry nb e h)
    rw [hlen] at this
    exact this b hb x hx

theorem resize_buckets_length (a : Assoc) (newcap : Nat) :
    (resize a newcap).buckets.length = newcap := by
  rw [resize, length_foldl_insertEntry, List.length_replicate]

theorem allEntries_resize_perm (a : Assoc) (newcap : Nat) (h : 0 < newcap) :
    (allEntries (resize a newcap)).Perm (allEntries a) := by
  have h0 : 0 < (List.replicate newcap ([] : List AssocEntry)).length := by simpa using h
  have := flatten_foldl_insertEntry_perm a.buckets.flatten _ h0
  rw [allEntries, allEntries, resize]
  refine this.trans ?_
  have : (List.replicate newcap ([] : List AssocEntry)).flatten = [] := by
    rw [List.flatten_eq_nil_iff]
    intro l hl
    exact List.eq_of_mem_replicate hl
  rw [this, List.append_nil]

theorem resize_placed (a : Assoc) (newcap : Nat) :
    ∀ b, b < (resize a newcap).buckets.length → ∀ e ∈ (resize a newcap).buckets.getD b [],
      bidx (resize a newcap).nbuckets e.i e.pi e.k e.pk = b := by
  have hlen : (List.replicate newcap ([] : List AssocEntry)).length = newcap := by simp
  have h0 : ∀ b, b < (List.replicate newcap ([] : List AssocEntry)).length →
      ∀ x ∈ (List.replicate newcap ([] : List AssocEntry)).getD b [],
        bidx (List.replicate newcap ([] : List AssocEntry)).length x.i x.pi x.k x.pk = b := by
    intro b hb x hx
    rw [getD_replicate_nil] at hx
    simp at hx
  have := placed_foldl_insertEntry a.buckets.flatten _ h0
  rw [hlen] at this
  intro b hb e he
  rw [resize_buckets_length] at hb
  exact this b hb e he

theorem assocWF_resize (a : Assoc) (h : AssocWF a) (newcap : Nat) (hc : 0 < newcap) :
    AssocWF (resize a newcap) := by
  refine ⟨resize_buckets_length a newcap, hc, resize_placed a newcap, ?_, ?_⟩
  · exact (List.Perm.pairwise_iff (fun hxy => fun hcc => hxy hcc.symm)
      (allEntries_resize_perm a newcap hc)).mpr h.distinct
  · intro e he
    exact h.nonzero e ((allEntries_resize_perm a newcap hc).mem_iff.mp he)

theorem assoc_get_resize (a : Assoc) (h : AssocWF a) (newcap : Nat) (hc : 0 < newcap)
    (i pi k pk : Int) : assoc_get (resize a newcap) i pi k pk = assoc_get a i pi k pk := by
  have hwf2 := assocWF_resize a h newcap hc
  rw [assoc_get_eq_flatten _ hwf2.len_eq hwf2.pos hwf2.placed,
      assoc_get_eq_flatten _ h.len_eq h.pos h.placed]
  exact chainGet_perm _ _ (allEntries_resize_perm a newcap hc) hwf2.distinct i pi k pk

/-! Lemmas about chainUpdate. -/

theorem keyMatch_mk_val (e : AssocEntry) (v i pi k pk : Int) :
    keyMatch { e with val := v } i pi k pk = keyMatch e i pi k pk := rfl

theorem chainUpdate_mem (l : List AssocEntry) (i pi k pk delta : Int) :
    ∀ x ∈ chainUpdate l i pi k pk delta, ∃ y ∈ l, keyOf x = keyOf y := by
  induction l with
  | nil => intro x hx; simp [chainUpdate] at hx
  | cons e es ih =>
    intro x hx
    rw [chainUpdate] at hx
    by_cases hm : keyMatch e i pi k pk
    · rw [if_pos hm] at hx
      by_cases hz : e.val + delta = 0
      · rw [if_pos hz] at hx
        exact ⟨x, List.mem_cons_of_mem e hx, rfl⟩
      · rw [if_neg hz] at hx
        rcases List.mem_cons.mp hx with rfl | hx2
        · exact ⟨e, List.mem_cons_self e es, rfl⟩
        · exact ⟨x, List.mem_cons_of_mem e hx2, rfl⟩
    · rw [if_neg hm] at hx
      rcases List.mem_cons.mp hx with rfl | hx2
      · exact ⟨x, List.mem_cons_self x es, rfl⟩
      · rcases ih x hx2 with ⟨y, hy, hxy⟩
        exact ⟨y, List.mem_cons_of_mem e hy, hxy⟩

theorem chainUpdate_nonzero (l : List AssocEntry) (i pi k pk delta : Int)
    (h : ∀ e ∈ l, e.val ≠ 0) : ∀ x ∈ chainUpdate l i pi k pk delta, x.val ≠ 0 := by
  induction l with
  | nil => intro x hx; simp [chainUpdate] at hx
  | cons e es ih =>
    intro x hx
    rw [chainUpdate] at hx
    by_cases hm : keyMatch e i pi k pk
    · rw [if_pos hm] at hx
      by_cases hz : e.val + delta = 0
      · rw [if_pos hz] at hx
        exact h x (List.mem_cons_of_mem e hx)
      · rw [if_neg hz] at hx
        rcases List.mem_cons.mp hx with rfl | hx2
        · exact hz
        · exact h x (List.mem_cons_of_mem e hx2)
    · rw [if_neg hm] at hx
      rcases List.mem_cons.mp hx with rfl | hx2
      · exact h x (List.mem_cons_self x es)
      · exact ih (fun y hy => h y (List.mem_cons_of_mem e hy)) x hx2

theorem chainUpdate_pairwise (l : List AssocEntry) (i pi k pk delta : Int)
    (hpw : l.Pairwise (fun x y => keyOf x ≠ keyOf y)) :
    (chainUpdate l i pi k pk delta).Pairwise (fun x y => keyOf x ≠ keyOf y) := by
  induction l with
  | nil => exact List.Pairwise.nil
  | cons e es ih =>
    rcases List.pairwise_cons.mp hpw with ⟨hhead, htail⟩
    rw [chainUpdate]
    by_cases hm : keyMatch e i pi k pk
    · rw [if_pos hm]
      by_cases hz : e.val + delta = 0
      · rw [if_pos hz]; exact htail
      · rw [if_neg hz]
        exact List.pairwise_cons.mpr ⟨fun y hy => hhead y hy, htail⟩
    · rw [if_neg hm]
      refine List.pairwise_cons.mpr ⟨?_, ih htail⟩
      intro y hy
      rcases chainUpdate_mem es i pi k pk delta y hy with ⟨z, hz, hyz⟩
      rw [hyz]
      exact hhead z hz

theorem chainGet_chainUpdate_self (l : List AssocEntry) (i pi k pk delta : Int)
    (hpw : l.Pairwise (fun x y => keyOf x ≠ keyOf y))
    (hc : chainContains l i pi k pk = true) :
    chainGet (chainUpdate l i pi k pk delta) i pi k pk = chainGet l i pi k pk + delta := by
  induction l with
  | nil => simp [chainContains] at hc
  | cons e es ih =>
    rcases List.pairwise_cons.mp hpw with ⟨hhead, htail⟩
    rw [chainUpdate]
    by_cases hm : keyMatch e i pi k pk
    · rw [if_pos hm]
      have hes : chainGet es i pi k pk = 0 := by
        refine chainGet_eq_zero es i pi k pk ?_
        intro x hx
        rw [← (keyMatch_true_iff e i pi k pk).mp hm]
        exact fun hcc => hhead x hx hcc.symm
      by_cases hz : e.val + delta = 0
      · rw [if_pos hz, chainGet, if_pos hm, hes, hz]
      · rw [if_neg hz, chainGet, if_pos (by rw [keyMatch_mk_val]; exact hm), chainGet, if_pos hm]
    · rw [if_neg hm, chainGet, if_neg hm, chainGet, if_neg hm]
      rw [chainContains, Bool.or_eq_true] at hc
      rcases hc with hc1 | hc2
      · exact absurd hc1 hm
      · exact ih htail hc2

theorem chainGet_chainUpdate_ne (l : List AssocEntry) (i pi k pk delta i2 pi2 k2 pk2 : Int)
    (hne : ((i, pi, k, pk) : Int × Int × Int × Int) ≠ (i2, pi2, k2, pk2)) :
    chainGet (chainUpdate l i pi k pk delta) i2 pi2 k2 pk2 = chainGet l i2 pi2 k2 pk2 := by
  induction l with
  | nil => rfl
  | cons e es ih =>
    rw [chainUpdate]
    by_cases hm : keyMatch e i pi k pk
    · have hm2 : keyMatch e i2 pi2 k2 pk2 = false := by
        rw [← Bool.not_eq_true, keyMatch_true_iff]
        rw [keyMatch_true_iff] at hm
        rw [hm]
        exact hne
      rw [if_pos hm]
      by_cases hz : e.val + delta = 0
      · rw [if_pos hz, chainGet, if_neg (by rw [hm2]; exact Bool.false_ne_true)]
      · rw [if_neg hz, chainGet, if_neg (by rw [keyMatch_mk_val, hm2]; exact Bool.false_ne_true),
            chainGet, if_neg (by rw [hm2]; exact Bool.false_ne_true)]
    · rw [if_neg hm, chainGet, chainGet, ih]

/-! Membership decomposition for updated bucket arrays. -/

theorem mem_flatten_take (L : List (List AssocEntry)) (n : Nat) (x : AssocEntry)
    (hx : x ∈ (L.take n).flatten) : ∃ b, b < n ∧ b < L.length ∧ x ∈ L.getD b [] := by
  rcases List.mem_flatten.mp hx with ⟨l, hl, hxl⟩
  rcases List.getElem_of_mem hl with ⟨b, hb, hbl⟩
  rw [List.length_take] at hb
  have hbn : b < n := lt_of_lt_of_le hb (min_le_left _ _)
  have hbL : b < L.length := lt_of_lt_of_le hb (min_le_right _ _)
  refine ⟨b, hbn, hbL, ?_⟩
  rw [List.getD_eq_getElem L [] hbL]
  rw [List.getElem_take] at hbl
  rw [hbl]
  exact hxl

theorem mem_flatten_drop (L : List (List AssocEntry)) (n : Nat) (x : AssocEntry)
    (hx : x ∈ (L.drop n).flatten) : ∃ b, n ≤ b ∧ b < L.length ∧ x ∈ L.getD b [] := by
  rcases List.mem_flatten.mp hx with ⟨l, hl, hxl⟩
  rcases List.getElem_of_mem hl with ⟨b, hb, hbl⟩
  rw [List.length_drop] at hb
  have hbL : n + b < L.length := by omega
  refine ⟨n + b, Nat.le_add_right n b, hbL, ?_⟩
  rw [List.getD_eq_getElem L [] hbL]
  rw [List.getElem_drop] at hbl
  rw [hbl]
  exact hxl

theorem mem_flatten_of_take (L : List (List AssocEntry)) (n : Nat) (x : AssocEntry)
    (hx : x ∈ (L.take n).flatten) : x ∈ L.flatten := by
  rcases mem_flatten_take L n x hx with ⟨b, _, hbL, hmem⟩
  exact List.mem_flatten_of_mem (list_getD_mem L b [] hbL) hmem

theorem mem_flatten_of_drop (L : List (List AssocEntry)) (n : Nat) (x : AssocEntry)
    (hx : x ∈ (L.drop n).flatten) : x ∈ L.flatten := by
  rcases mem_flatten_drop L n x hx with ⟨b, _, hbL, hmem⟩
  exact List.mem_flatten_of_mem (list_getD_mem L b [] hbL) hmem

/-! Preservation of the invariants when one bucket is replaced. -/

theorem placed_flatten_set (NB : Nat) (L : List (List AssocEntry)) (idx : Nat)
    (newChain : List AssocEntry) (hidx : idx < L.length)
    (hplacedL : ∀ b, b < L.length → ∀ e ∈ L.getD b [], bidx NB e.i e.pi e.k e.pk = b)
    (hplacedNew : ∀ x ∈ newChain, bidx NB x.i x.pi x.k x.pk = idx) :
    ∀ b, b < (L.set idx newChain).length → ∀ e ∈ (L.set idx newChain).getD b [],
      bidx NB e.i e.pi e.k e.pk = b := by
  intro b hb e he
  rw [List.length_set] at hb
  by_cases hbeq : idx = b
  · subst hbeq
    rw [list_getD_set_self _ _ _ _ hidx] at he
    exact hplacedNew e he
  · rw [list_getD_set_ne _ _ _ _ _ hbeq] at he
    exact hplacedL b hb e he

theorem pairwise_flatten_set (NB : Nat) (L : List (List AssocEntry)) (idx : Nat)
    (newChain : List AssocEntry) (hidx : idx < L.length)
    (hpwL : L.flatten.Pairwise (fun x y => keyOf x ≠ keyOf y))
    (hplacedL : ∀ b, b < L.length → ∀ e ∈ L.getD b [], bidx NB e.i e.pi e.k e.pk = b)
    (hpwNew : newChain.Pairwise (fun x y => keyOf x ≠ keyOf y))
    (hplacedNew : ∀ x ∈ newChain, bidx NB x.i x.pi x.k x.pk = idx) :
    (L.set idx newChain).flatten.Pairwise (fun x y => keyOf x ≠ keyOf y) := by
  rw [flatten_set_decomp _ _ _ hidx]
  rw [flatten_decomp L idx hidx] at hpwL
  rcases List.pairwise_append.mp hpwL with ⟨hpwTC, hpwDF, hcross2⟩
  rcases List.pairwise_append.mp hpwTC with ⟨hpwTF, _, _⟩
  refine List.pairwise_append.mpr ⟨List.pairwise_append.mpr ⟨hpwTF, hpwNew, ?_⟩, hpwDF, ?_⟩
  · intro x hx y hy
    rcases mem_flatten_take L idx x hx with ⟨b, hbn, hbL, hmem⟩
    intro hkey
    have hbx := hplacedL b hbL x hmem
    have hby := hplacedNew y hy
    rw [bidx_congr NB x y hkey] at hbx
    omega
  · intro x hx y hy
    rcases List.mem_append.mp hx with hxT | hxN
    · exact hcross2 x (List.mem_append_left _ hxT) y hy
    · rcases mem_flatten_drop L (idx + 1) y hy with ⟨b, hbn, hbL, hmem⟩
      intro hkey
      have hby := hplacedL b hbL y hmem
      have hbx := hplacedNew x hxN
      rw [bidx_congr NB x y hkey] at hbx
      omega

theorem nonzero_flatten_set (L : List (List AssocEntry)) (idx : Nat)
    (newChain : List AssocEntry) (hidx : idx < L.length)
    (hnzL : ∀ e ∈ L.flatten, e.val ≠ 0) (hnzNew : ∀ x ∈ newChain, x.val ≠ 0) :
    ∀ x ∈ (L.set idx newChain).flatten, x.val ≠ 0 := by
  intro x hx
  rw [flatten_set_decomp _ _ _ hidx] at hx
  rcases List.mem_append.mp hx with hx1 | hxD
  · rcases List.mem_append.mp hx1 with hxT | hxN
    · exact hnzL x (mem_flatten_of_take L idx x hxT)
    · exact hnzNew x hxN
  · exact hnzL x (mem_flatten_of_drop L (idx + 1) x hxD)

/-! assoc_add_core: effect on get, and invariant preservation. -/

theorem assoc_buckets_ne_nil (a : Assoc) (h : AssocWF a) : a.buckets ≠ [] := by
  intro hnil
  have hlen := h.len_eq
  rw [hnil] at hlen
  simp only [List.length_nil] at hlen
  have := h.pos
  omega

theorem assoc_get_core_eq (a1 : Assoc) (h : AssocWF a1) (i pi k pk delta i2 pi2 k2 pk2 : Int) :
    assoc_get (assoc_add_core a1 i pi k pk delta) i2 pi2 k2 pk2 =
      assoc_get a1 i2 pi2 k2 pk2 +
        (if ((i, pi, k, pk) : Int × Int × Int × Int) = (i2, pi2, k2, pk2) then delta else 0) := by
  have hbne := assoc_buckets_ne_nil a1 h
  have hidx : bidx a1.nbuckets i pi k pk < a1.buckets.length := by
    rw [h.len_eq]; exact bidx_lt _ _ _ _ _ h.pos
  have hchain_pw : (a1.buckets.getD (bidx a1.nbuckets i pi k pk) []).Pairwise
      (fun x y => keyOf x ≠ keyOf y) :=
    h.distinct.sublist (List.sublist_flatten_of_mem (list_getD_mem _ _ _ hidx))
  have hget1 : assoc_get a1 i2 pi2 k2 pk2 =
      chainGet (a1.buckets.getD (bidx a1.nbuckets i2 pi2 k2 pk2) []) i2 pi2 k2 pk2 := by
    rw [assoc_get, if_neg hbne]
  simp only [assoc_add_core]
  by_cases hc : chainContains (a1.buckets.getD (bidx a1.nbuckets i pi k pk) []) i pi k pk = true
  · rw [if_pos hc]
    have hsetne : (a1.buckets.set (bidx a1.nbuckets i pi k pk)
        (chainUpdate (a1.buckets.getD (bidx a1.nbuckets i pi k pk) []) i pi k pk delta)) ≠ [] := by
      intro hnil
      have := congrArg List.length hnil
      rw [List.length_set] at this
      simp only [List.length_nil] at this
      omega
    rw [assoc_get, if_neg hsetne]
    simp only []
    by_cases hk : ((i, pi, k, pk) : Int × Int × Int × Int) = (i2, pi2, k2, pk2)
    · have hcomp : i = i2 ∧ pi = pi2 ∧ k = k2 ∧ pk = pk2 := by simpa [Prod.ext_iff] using hk
      obtain ⟨rfl, rfl, rfl, rfl⟩ := hcomp
      rw [if_pos rfl, list_getD_set_self _ _ _ _ hidx,
          chainGet_chainUpdate_self _ _ _ _ _ _ hchain_pw hc, hget1]
    · rw [if_neg hk, add_zero]
      by_cases hb : bidx a1.nbuckets i2 pi2 k2 pk2 = bidx a1.nbuckets i pi k pk
      · rw [hb, list_getD_set_self _ _ _ _ hidx,
            chainGet_chainUpdate_ne _ _ _ _ _ _ _ _ _ _ hk, hget1, hb]
      · rw [list_getD_set_ne _ _ _ _ _ (fun hcc => hb hcc.symm), hget1]
  · rw [if_neg hc]
    have hsetne : (a1.buckets.set (bidx a1.nbuckets i pi k pk)
        ((⟨i, pi, k, pk, delta⟩ : AssocEntry) ::
          a1.buckets.getD (bidx a1.nbuckets i pi k pk) [])) ≠ [] := by
      intro hnil
      have := congrArg List.length hnil
      rw [List.length_set] at this
      simp only [List.length_nil] at this
      omega
    rw [assoc_get, if_neg hsetne]
    simp only []
    have hgz : chainGet (a1.buckets.getD (bidx a1.nbuckets i pi k pk) []) i pi k pk = 0 := by
      refine chainGet_eq_zero _ _ _ _ _ ?_
      exact (chainContains_eq_false_iff _ _ _ _ _).mp (Bool.not_eq_true _ ▸ hc)
    by_cases hk : ((i, pi, k, pk) : Int × Int × Int × Int) = (i2, pi2, k2, pk2)
    · have hcomp : i = i2 ∧ pi = pi2 ∧ k = k2 ∧ pk = pk2 := by simpa [Prod.ext_iff] using hk
      obtain ⟨rfl, rfl, rfl, rfl⟩ := hcomp
      rw [if_pos rfl, list_getD_set_self _ _ _ _ hidx, chainGet,
          if_pos (by rw [keyMatch_true_iff]; rfl), hget1, hgz, zero_add]
    · rw [if_neg hk, add_zero]
      by_cases hb : bidx a1.nbuckets i2 pi2 k2 pk2 = bidx a1.nbuckets i pi k pk
      · rw [hb, list_getD_set_self _ _ _ _ hidx, chainGet, if_neg, hget1, hb]
        rw [keyMatch_true_iff]
        simp only [keyOf]
        exact hk
      · rw [list_getD_set_ne _ _ _ _ _ (fun hcc => hb hcc.symm), hget1]

theorem assocWF_core (a1 : Assoc) (h : AssocWF a1) (i pi k pk delta : Int) (hd : delta ≠ 0) :
    AssocWF (assoc_add_core a1 i pi k pk delta) := by
  have hbne := assoc_buckets_ne_nil a1 h
  have hidx : bidx a1.nbuckets i pi k pk < a1.buckets.length := by
    rw [h.len_eq]; exact bidx_lt _ _ _ _ _ h.pos
  have hchain_mem : a1.buckets.getD (bidx a1.nbuckets i pi k pk) [] ∈ a1.buckets :=
    list_getD_mem _ _ _ hidx
  have hchain_pw : (a1.buckets.getD (bidx a1.nbuckets i pi k pk) []).Pairwise
      (fun x y => keyOf x ≠ keyOf y) :=
    h.distinct.sublist (List.sublist_flatten_of_mem hchain_mem)
  have hchain_nz : ∀ e ∈ a1.buckets.getD (bidx a1.nbuckets i pi k pk) [], e.val ≠ 0 := by
    intro e he
    exact h.nonzero e (List.mem_flatten_of_mem hchain_mem he)
  have hchain_placed : ∀ e ∈ a1.buckets.getD (bidx a1.nbuckets i pi k pk) [],
      bidx a1.nbuckets e.i e.pi e.k e.pk = bidx a1.nbuckets i pi k pk :=
    h.placed _ hidx
  simp only [assoc_add_core]
  by_cases hc : chainContains (a1.buckets.getD (bidx a1.nbuckets i pi k pk) []) i pi k pk = true
  · rw [if_pos hc]
    refine ⟨?_, h.pos, ?_, ?_, ?_⟩
    · simp only [List.length_set]
      exact h.len_eq
    · simp only []
      refine placed_flatten_set a1.nbuckets a1.buckets _ _ hidx h.placed ?_
      intro x hx
      rcases chainUpdate_mem _ _ _ _ _ _ x hx with ⟨y, hy, hxy⟩
      rw [bidx_congr _ x y hxy]
      exact hchain_placed y hy
    · refine pairwise_flatten_set a1.nbuckets a1.buckets _ _ hidx h.distinct h.placed
        (chainUpdate_pairwise _ _ _ _ _ _ hchain_pw) ?_
      intro x hx
      rcases chainUpdate_mem _ _ _ _ _ _ x hx with ⟨y, hy, hxy⟩
      rw [bidx_congr _ x y hxy]
      exact hchain_placed y hy
    · exact nonzero_flatten_set a1.buckets _ _ hidx h.nonzero
        (chainUpdate_nonzero _ _ _ _ _ _ hchain_nz)
  · rw [if_neg hc]
    have hnotin : ∀ e ∈ a1.buckets.getD (bidx a1.nbuckets i pi k pk) [],
        keyOf e ≠ (i, pi, k, pk) :=
      (chainContains_eq_false_iff _ _ _ _ _).mp (Bool.not_eq_true _ ▸ hc)
    refine ⟨?_, h.pos, ?_, ?_, ?_⟩
    · simp only [List.length_set]
      exact h.len_eq
    · simp only []
      refine placed_flatten_set a1.nbuckets a1.buckets _ _ hidx h.placed ?_
      intro x hx
      rcases List.mem_cons.mp hx with rfl | hx2
      · rfl
      · exact hchain_placed x hx2
    · refine pairwise_flatten_set a1.nbuckets a1.buckets _ _ hidx h.distinct h.placed ?_ ?_
      · refine List.pairwise_cons.mpr ⟨?_, hchain_pw⟩
        intro y hy
        exact fun hcc => hnotin y hy hcc.symm
      · intro x hx
        rcases List.mem_cons.mp hx with rfl | hx2
        · rfl
        · exact hchain_placed x hx2
    · refine nonzero_flatten_set a1.buckets _ _ hidx h.nonzero ?_
      intro x hx
      rcases List.mem_cons.mp hx with rfl | hx2
      · exact hd
      · exact hchain_nz x hx2

/-! Top-level lemmas about assoc_add. -/

theorem newcap_pos (a : Assoc) : 0 < (if a.nbuckets = 0 then 1024 else a.nbuckets * 2) := by
  split
  · omega
  · omega

theorem assoc_get_add (a : Assoc) (h : AssocWF a) (i pi k pk delta i2 pi2 k2 pk2 : Int) :
    assoc_get (assoc_add a i pi k pk delta) i2 pi2 k2 pk2 =
      assoc_get a i2 pi2 k2 pk2 +
        (if ((i, pi, k, pk) : Int × Int × Int × Int) = (i2, pi2, k2, pk2) then delta else 0) := by
  simp only [assoc_add]
  by_cases h0 : a.buckets = [] ∨ delta = 0
  · rw [if_pos h0]
    have hd0 : delta = 0 := by
      rcases h0 with hb | hd
      · exact absurd hb (assoc_buckets_ne_nil a h)
      · exact hd
    rw [hd0]
    simp
  · rw [if_neg h0]
    by_cases hl : (a.nentries + 1) * 4 > a.nbuckets * 3
    · rw [if_pos hl]
      have hwf1 : AssocWF (resize a (if a.nbuckets = 0 then 1024 else a.nbuckets * 2)) :=
        assocWF_resize a h _ (newcap_pos a)
      rw [assoc_get_core_eq _ hwf1, assoc_get_resize a h _ (newcap_pos a)]
    · rw [if_neg hl]
      rw [assoc_get_core_eq _ h]

theorem assocWF_add (a : Assoc) (h : AssocWF a) (i pi k pk delta : Int) :
    AssocWF (assoc_add a i pi k pk delta) := by
  simp only [assoc_add]
  by_cases h0 : a.buckets = [] ∨ delta = 0
  · rw [if_pos h0]; exact h
  · rw [if_neg h0]
    have hd : delta ≠ 0 := fun hc => h0 (Or.inr hc)
    by_cases hl : (a.nentries + 1) * 4 > a.nbuckets * 3
    · rw [if_pos hl]
      exact assocWF_core _ (assocWF_resize a h _ (newcap_pos a)) _ _ _ _ _ hd
    · rw [if_neg hl]
      exact assocWF_core _ h _ _ _ _ _ hd

theorem assoc_get_eq_zero_of_absent (a : Assoc) (h : AssocWF a) (i pi k pk : Int)
    (habs : assocHasKey a i pi k pk = false) : assoc_get a i pi k pk = 0 := by
  rw [assoc_get_eq_flatten _ h.len_eq h.pos h.placed]
  apply chainGet_eq_zero
  intro e he hkey
  rw [assocHasKey] at habs
  exact (List.any_eq_false.mp habs) e he ((keyMatch_true_iff e i pi k pk).mpr hkey)

theorem assocHasKey_eq_false_of_get_zero (a : Assoc) (h : AssocWF a) (i pi k pk : Int)
    (hg : assoc_get a i pi k pk = 0) : assocHasKey a i pi k pk = false := by
  rw [assocHasKey, List.any_eq_false]
  intro e he hm
  have hkey := (keyMatch_true_iff e i pi k pk).mp hm
  rw [assoc_get_eq_flatten _ h.len_eq h.pos h.placed, chainGet_eq_filter,
      filter_key_eq_single (allEntries a) h.distinct e he i pi k pk hkey] at hg
  exact h.nonzero e he hg

theorem round_up_pow2Aux_ge (x : Nat) : ∀ fuel p, p ≤ round_up_pow2Aux x fuel p := by
  intro fuel
  induction fuel with
  | zero => intro p; exact Nat.le_refl p
  | succ f ih =>
    intro p
    rw [round_up_pow2Aux]
    split
    · exact Nat.le_trans (by omega) (ih (p * 2))
    · exact Nat.le_refl p

theorem assocWF_init (hint : Nat) : AssocWF (assoc_init hint) := by
  have hpos : 0 < round_up_pow2 (if hint = 0 then 1024 else hint) :=
    Nat.lt_of_lt_of_le Nat.zero_lt_one (round_up_pow2Aux_ge _ _ 1)
  refine ⟨by simp [assoc_init], by simpa [assoc_init] using hpos, ?_, ?_, ?_⟩
  · intro b hb e he
    simp only [assoc_init] at he
    rw [getD_replicate_nil] at he
    simp at he
  · have : allEntries (assoc_init hint) = [] := by
      simp only [allEntries, assoc_init]
      rw [List.flatten_eq_nil_iff]
      intro l hl
      exact List.eq_of_mem_replicate hl
    rw [this]
    exact List.Pairwise.nil
  · intro e he
    simp only [allEntries, assoc_init] at he
    rw [List.flatten_eq_nil_iff.mpr (fun l hl => List.eq_of_mem_replicate hl)] at he
    simp at he

/-! Folding a sequence of assoc_add calls (as done by the learning updater over
ordered argument pairs, and by the persistence loader over saved rows). -/

def addAll (a : Assoc) (rows : List AssocEntry) : Assoc :=
  rows.foldl (fun acc r => assoc_add acc r.i r.pi r.k r.pk r.val) a

theorem assocWF_addAll (rows : List AssocEntry) (a : Assoc) (h : AssocWF a) :
    AssocWF (addAll a rows) := by
  induction rows generalizing a with
  | nil => exact h
  | cons r rs ih =>
    rw [addAll, List.foldl_cons]
    exact ih _ (assocWF_add a h r.i r.pi r.k r.pk r.val)

theorem assoc_get_addAll (rows : List AssocEntry) (a : Assoc) (h : AssocWF a)
    (i pi k pk : Int) :
    assoc_get (addAll a rows) i pi k pk =
      assoc_get a i pi k pk +
        ((rows.filter (fun r => keyMatch r i pi k pk)).map (fun r => r.val)).sum := by
  induction rows generalizing a with
  | nil => simp [addAll]
  | cons r rs ih =>
    rw [addAll, List.foldl_cons]
    have hfold : rs.foldl (fun acc x => assoc_add acc x.i x.pi x.k x.pk x.val)
        (assoc_add a r.i r.pi r.k r.pk r.val) =
        addAll (assoc_add a r.i r.pi r.k r.pk r.val) rs := rfl
    rw [hfold, ih _ (assocWF_add a h _ _ _ _ _),
        assoc_get_add a h r.i r.pi r.k r.pk r.val i pi k pk, List.filter_cons]
    by_cases hm : keyMatch r i pi k pk = true
    · have hkey : ((r.i, r.pi, r.k, r.pk) : Int × Int × Int × Int) = (i, pi, k, pk) := by
        have := (keyMatch_true_iff r i pi k pk).mp hm
        simpa [keyOf] using this
      rw [if_pos hm, if_pos hkey, List.map_cons, List.sum_cons]
      omega
    · have hkey : ¬ ((r.i, r.pi, r.k, r.pk) : Int × Int × Int × Int) = (i, pi, k, pk) := by
        intro hc
        exact hm ((keyMatch_true_iff r i pi k pk).mpr (by simpa [keyOf] using hc))
      rw [if_neg hkey, if_neg hm]
      omega

theorem filter_map_val_single (rows : List AssocEntry)
    (hpw : rows.Pairwise (fun x y => keyOf x ≠ keyOf y)) (x : AssocEntry) (hx : x ∈ rows)
    (i pi k pk : Int) (hkey : keyOf x = (i, pi, k, pk)) :
    ((rows.filter (fun r => keyMatch r i pi k pk)).map (fun r => r.val)).sum = x.val := by
  rw [filter_key_eq_single rows hpw x hx i pi k pk hkey]
  simp

theorem filter_map_val_nil (rows : List AssocEntry) (i pi k pk : Int)
    (h : ∀ r ∈ rows, keyOf r ≠ (i, pi, k, pk)) :
    ((rows.filter (fun r => keyMatch r i pi k pk)).map (fun r => r.val)).sum = 0 := by
  rw [filter_key_eq_nil rows i pi k pk h]
  simp

/-- C3: for every association-map state in which the key (i, pi, k, pk) is
absent and every non-zero delta, after add(key, delta), get(key) returns delta;
after then calling add(key, -delta), get(key) returns 0 and the key is yielded
by no iteration of the map (the entry is deleted when its value reaches zero);
and add with delta = 0 is a no-op. -/
theorem C3_assoc_add_get_roundtrip (a : Assoc) (i pi k pk delta : Int)
    (hwf : AssocWF a) (habs : assocHasKey a i pi k pk = false) (hd : delta ≠ 0) :
    assoc_get (assoc_add a i pi k pk delta) i pi k pk = delta ∧
    assoc_get (assoc_add (assoc_add a i pi k pk delta) i pi k pk (-delta)) i pi k pk = 0 ∧
    assocHasKey (assoc_add (assoc_add a i pi k pk delta) i pi k pk (-delta)) i pi k pk = false ∧
    assoc_add a i pi k pk 0 = a := by
  have h1 : assoc_get (assoc_add a i pi k pk delta) i pi k pk = delta := by
    rw [assoc_get_add a hwf, assoc_get_eq_zero_of_absent a hwf i pi k pk habs, if_pos rfl,
        zero_add]
  have hwf1 := assocWF_add a hwf i pi k pk delta
  have h2 : assoc_get (assoc_add (assoc_add a i pi k pk delta) i pi k pk (-delta))
      i pi k pk = 0 := by
    rw [assoc_get_add _ hwf1, h1, if_pos rfl]
    omega
  refine ⟨h1, h2, ?_, ?_⟩
  · exact assocHasKey_eq_false_of_get_zero _ (assocWF_add _ hwf1 i pi k pk (-delta))
      i pi k pk h2
  · simp [assoc_add]

/-- Witness for C3 at a concrete empty map, key (0, 1, 2, 3) and delta 5. -/
theorem C3_assoc_add_get_roundtrip_witness :
    (AssocWF (assoc_init 1) ∧ assocHasKey (assoc_init 1) 0 1 2 3 = false ∧ (5 : Int) ≠ 0) ∧
    (assoc_get (assoc_add (assoc_init 1) 0 1 2 3 5) 0 1 2 3 = 5 ∧
     assoc_get (assoc_add (assoc_add (assoc_init 1) 0 1 2 3 5) 0 1 2 3 (-5)) 0 1 2 3 = 0 ∧
     assocHasKey (assoc_add (assoc_add (assoc_init 1) 0 1 2 3 5) 0 1 2 3 (-5)) 0 1 2 3 = false ∧
     assoc_add (assoc_init 1) 0 1 2 3 0 = assoc_init 1) :=
  ⟨⟨assocWF_init 1, by decide, by decide⟩,
    C3_assoc_add_get_roundtrip (assoc_init 1) 0 1 2 3 5 (assocWF_init 1) (by decide) (by decide)⟩

/-! Proximity similarity, from src/learning.c.  Floating-point scores are
modelled as exact rationals. -/

/-- abs_diff_int from learning.h, applied to the two loop indices. -/
def absDiff (a b : Nat) : Nat := if a ≤ b then b - a else a - b

/-- Inner loop of array_similarity_proximity for one index i of arr1: the
minimal positional distance to a matching element of arr2, accepted only when
it improves on the initial worst-case value n2 (best_match_index stays -1
otherwise). -/
def minDistAt (a1 : List Int) (i : Nat) (a2 : List Int) (n2 : Nat) : Option Nat :=
  match (((List.range n2).filter (fun j => a2.getD j 0 == a1.getD i 0)).map
      (fun j => absDiff i j)).minimum? with
  | none => none
  | some m => if m < n2 then some m else none

/-- Per-index proximity scores 1 / (1 + d), with score 0 when no match. -/
def proximity_scores (a1 : List Int) (n1 : Nat) (a2 : List Int) (n2 : Nat) : List ℚ :=
  (List.range n1).map (fun i =>
    match minDistAt a1 i a2 n2 with
    | none => (0 : ℚ)
    | some d => 1 / (1 + (d : ℚ)))

/-- array_similarity_proximity from learning.c. -/
def array_similarity_proximity (a1 : List Int) (n1 : Nat) (a2 : List Int) (n2 : Nat) : ℚ :=
  if n1 = 0 ∨ n2 = 0 then 0
  else ((proximity_scores a1 n1 a2 n2).sum / (n1 : ℚ)) * 100

/-- eff_len_terminated from learning.c: length of the prefix before the -1
terminator, capped at max_len. -/
def eff_len_terminated (a : List Int) (maxLen : Nat) : Nat :=
  ((a.take maxLen).takeWhile (fun x => x != IDX_TERMINATOR)).length

/-- line_similarity_proximity from learning.c. -/
def line_similarity_proximity (l1 : List Int) (maxLen1 : Nat) (l2 : List Int)
    (maxLen2 : Nat) : ℚ :=
  let n1 := eff_len_terminated l1 maxLen1
  let n2 := eff_len_terminated l2 maxLen2
  if n1 = 0 ∨ n2 = 0 then 0 else array_similarity_proximity l1 n1 l2 n2

/-- Scan loop of is_redundant_line_proximity, tracking best score and index,
with early exit once the threshold is met. -/
def is_redundantAux (line : List Int) (obsLen : Nat) (threshold : ℚ) :
    List (List Int) → Nat → ℚ → Int → Bool × Int × ℚ
  | [], _, best, bestIdx => (decide (best ≥ threshold), bestIdx, best)
  | row :: rest, rowIdx, best, bestIdx =>
      let s := line_similarity_proximity line obsLen row obsLen
      let best2 := if s > best then s else best
      let bestIdx2 := if s > best then (rowIdx : Int) else bestIdx
      if best2 ≥ threshold then (true, bestIdx2, best2)
      else is_redundantAux line obsLen threshold rest (rowIdx + 1) best2 bestIdx2

/-- is_redundant_line_proximity from learning.c, as called by update_database:
each observation row is compared with the cap observationLength on both sides. -/
def is_redundant_line_proximity (line : List Int) (observationLength : Nat)
    (entries : List (List Int)) (threshold : ℚ) : Bool × Int × ℚ :=
  if observationLength = 0 then (false, -1, 0)
  else is_redundantAux line observationLength threshold entries 0 0 (-1)

/-- Modelled from the spec, §4.D: the proximity similarity sim(a, b) of two
full index sequences, normalized by the length of the first.  Used to state C4
as written; it differs from the code only in that the code caps the second
sequence at the candidate length. -/
def simSpec (a b : List Int) : ℚ := array_similarity_proximity a a.length b b.length

/-! Vocabulary, tokenization and the learning updater, from src/database.c. -/

def find_token_indexAux : List (List Char) → List Char → Nat → Int
  | [], _, _ => -1
  | w :: ws, t, acc => if w = t then (acc : Int) else find_token_indexAux ws t (acc + 1)

/-- find_token_index_unlocked from database.c: linear scan, index or -1. -/
def find_token_index (words : List (List Char)) (t : List Char) : Int :=
  find_token_indexAux words t 0

/-- Delimiters of strtok_r in tokenize_to_indices: space, tab, CR, LF. -/
def isWsDelim (c : Char) : Bool := c == ' ' || c == '\t' || c == '\r' || c == '\n'

/-- strtok_r splitting: maximal non-empty runs of non-delimiter characters. -/
def split_wsAux : List Char → List Char → List (List Char)
  | [], cur => if cur = [] then [] else [cur.reverse]
  | c :: cs, cur =>
      if isWsDelim c then
        if cur = [] then split_wsAux cs []
        else cur.reverse :: split_wsAux cs []
      else split_wsAux cs (c :: cur)

def split_ws (s : List Char) : List (List Char) := split_wsAux s []

/-- Words from model.h: vocabulary tokens plus the association map.
numWords is the length of the token list. -/
structure Words where
  token : List (List Char)
  assoc : Assoc
  deriving DecidableEq

/-- Observations from model.h: stored tokenized lines (terminator included). -/
structure Observations where
  entries : List (List Int)
  deriving DecidableEq

/-- tokenize_to_indices from database.c: known-token indices in order,
-1-terminated; none when no token of the output is in the vocabulary. -/
def tokenize_to_indices (w : Words) (line : List Char) : Option (List Int) :=
  let idxs := (split_ws line).filterMap (fun t =>
    let idx := find_token_index w.token t
    if 0 ≤ idx then some idx else none)
  if idxs = [] then none else some (idxs ++ [IDX_TERMINATOR])

/-- Argument extraction loop of update_database: indices of cmd up to the
first terminator, at most CMDMAX. -/
def cmd_args (cmd : List Int) : List Int :=
  (cmd.take CMDMAX).takeWhile (fun x => x != IDX_TERMINATOR)

/-- The ordered pairs (a, b), a ≠ b, visited by the nested association-update
loops of update_database, as add rows (val is the reward delta). -/
def pair_rows (vals : List Int) (reward : Int) : List AssocEntry :=
  (List.range vals.length).flatMap (fun a =>
    (List.range vals.length).filterMap (fun b =>
      if a = b then none
      else some ⟨vals.getD a 0, (a : Int), vals.getD b 0, (b : Int), reward⟩))

/-- update_database from database.c.  Allocation always succeeds, so with
STORE_REDUNDANT = 1 a non-empty tokenized line is always appended. -/
def update_database (w : Words) (obs : Observations) (output : List Char)
    (cmd : List Int) : Words × Observations × Int :=
  match tokenize_to_indices w output with
  | none =>
      ({ w with assoc := addAll w.assoc (pair_rows (cmd_args cmd) 1) }, obs, 1)
  | some line =>
      let nline := eff_len_terminated line (CMDMAX * 4)
      let redundant := (is_redundant_line_proximity line nline obs.entries
        REDUNDANCY_THRESHOLD).1
      let obs2 : Observations :=
        if !redundant || STORE_REDUNDANT then ⟨obs.entries ++ [line]⟩ else obs
      let reward : Int := if redundant then -PENALTY else REWARD
      ({ w with assoc := addAll w.assoc (pair_rows (cmd_args cmd) reward) }, obs2, reward)

/-- Content of a stored observation row: the prefix before the terminator. -/
def lineContent (row : List Int) : List Int := row.takeWhile (fun x => x != IDX_TERMINATOR)

/-- C4 counterexample: the candidate [0, 1] and observation [0, 2, 1] have
spec-similarity exactly 75 ≥ threshold, yet the code caps the observation at
the candidate length 2, computes 50, and judges the line not redundant. -/
theorem C4_counterexample :
    (∃ c ∈ [([0, 2, 1, -1] : List Int)],
      simSpec (lineContent [0, 1, -1]) (lineContent c) ≥ REDUNDANCY_THRESHOLD) ∧
    (is_redundant_line_proximity [0, 1, -1] (eff_len_terminated [0, 1, -1] (CMDMAX * 4))
      [[0, 2, 1, -1]] REDUNDANCY_THRESHOLD).1 = false := by
  with_unfolding_all decide

/-- Scan invariant for is_redundantAux: if some remaining row reaches the
threshold under the code's capped similarity, or the running best already
does, the scan reports redundant with best-score at least the threshold. -/
theorem is_redundantAux_spec (line : List Int) (n : Nat) (t : ℚ) :
    ∀ (entries : List (List Int)) (rowIdx : Nat) (best : ℚ) (bestIdx : Int),
      ((∃ c ∈ entries, line_similarity_proximity line n c n ≥ t) ∨ best ≥ t) →
      (is_redundantAux line n t entries rowIdx best bestIdx).1 = true ∧
      (is_redundantAux line n t entries rowIdx best bestIdx).2.2 ≥ t := by
  intro entries
  induction entries with
  | nil =>
    intro rowIdx best bestIdx h
    have hb : best ≥ t := by
      rcases h with h | h
      · simp at h
      · exact h
    rw [is_redundantAux]
    exact ⟨decide_eq_true hb, hb⟩
  | cons row rest ih =>
    intro rowIdx best bestIdx h
    rw [is_redundantAux]
    by_cases hth : (if line_similarity_proximity line n row n > best then
        line_similarity_proximity line n row n else best) ≥ t
    · rw [if_pos hth]
      exact ⟨rfl, hth⟩
    · rw [if_neg hth]
      refine ih (rowIdx + 1) _ _ ?_
      rcases h with ⟨c, hc, hsim⟩ | hbest
      · rcases List.mem_cons.mp hc with rfl | hc2
        · exfalso
          apply hth
          by_cases hgt : line_similarity_proximity line n c n > best
          · rw [if_pos hgt]; exact hsim
          · rw [if_neg hgt]
            exact le_trans hsim (le_of_not_lt hgt)
        · exact Or.inl ⟨c, hc2, hsim⟩
      · exfalso
        apply hth
        by_cases hgt : line_similarity_proximity line n row n > best
        · rw [if_pos hgt]; exact le_trans hbest (le_of_lt hgt)
        · rw [if_neg hgt]; exact hbest

/-- C4 (amended): for every candidate tokenized line with positive effective
length and every observation set, if some observation c reaches the threshold
under the similarity the code computes — the observation capped at the
candidate's effective length — then the judgement is redundant and the
reported best-score is ≥ threshold. -/
theorem C4_redundancy_threshold (line : List Int) (n : Nat) (entries : List (List Int))
    (t : ℚ) (hn : 0 < n)
    (hex : ∃ c ∈ entries, line_similarity_proximity line n c n ≥ t) :
    (is_redundant_line_proximity line n entries t).1 = true ∧
    (is_redundant_line_proximity line n entries t).2.2 ≥ t := by
  rw [is_redundant_line_proximity, if_neg (Nat.pos_iff_ne_zero.mp hn)]
  exact is_redundantAux_spec line n t entries 0 0 (-1) (Or.inl hex)

/-- Witness for C4 (amended) at candidate [5] and observation set [[5, -1]]. -/
theorem C4_redundancy_threshold_witness :
    ((0 : Nat) < 1 ∧
      (∃ c ∈ [([5, -1] : List Int)],
        line_similarity_proximity [5, -1] 1 c 1 ≥ REDUNDANCY_THRESHOLD)) ∧
    ((is_redundant_line_proximity [5, -1] 1 [[5, -1]] REDUNDANCY_THRESHOLD).1 = true ∧
      (is_redundant_line_proximity [5, -1] 1 [[5, -1]] REDUNDANCY_THRESHOLD).2.2 ≥
        REDUNDANCY_THRESHOLD) :=
  ⟨⟨Nat.zero_lt_one, by with_unfolding_all decide⟩,
    C4_redundancy_threshold [5, -1] 1 [[5, -1]] REDUNDANCY_THRESHOLD Nat.zero_lt_one
      (by with_unfolding_all decide)⟩

example : simSpec [0, 1] [0, 2, 1] = 75 := by with_unfolding_all decide

example : (is_redundant_line_proximity [0, 1, -1] 2 [[0, 2, 1, -1]] REDUNDANCY_THRESHOLD).1 = false := by
  with_unfolding_all decide

example : (is_redundant_line_proximity [0, 1, -1] 2 [[0, 1, -1]] REDUNDANCY_THRESHOLD) = (true, 0, 100) := by
  with_unfolding_all decide

example : split_ws (' ' :: 'h' :: 'i' :: '\t' :: 'y' :: 'o' :: []) = [['h', 'i'], ['y', 'o']] := by decide

example : cmd_args [3, 5, -1, 7] = [3, 5] := by decide

/-! The ordered-pair update rows have pairwise-distinct keys, since the two
position components pin down the pair (a, b). -/

theorem mem_pair_rows (vals : List Int) (reward : Int) (a b : Nat)
    (ha : a < vals.length) (hb : b < vals.length) (hab : a ≠ b) :
    (⟨vals.getD a 0, (a : Int), vals.getD b 0, (b : Int), reward⟩ : AssocEntry) ∈
      pair_rows vals reward := by
  rw [pair_rows, List.mem_flatMap]
  refine ⟨a, List.mem_range.mpr ha, ?_⟩
  rw [List.mem_filterMap]
  exact ⟨b, List.mem_range.mpr hb, by rw [if_neg hab]⟩

theorem pair_rows_pairwise (vals : List Int) (reward : Int) :
    (pair_rows vals reward).Pairwise (fun x y => keyOf x ≠ keyOf y) := by
  rw [pair_rows, List.pairwise_flatMap]
  constructor
  · intro a _
    rw [List.pairwise_filterMap]
    refine List.Pairwise.imp ?_ (List.pairwise_lt_range vals.length)
    intro b1 b2 hlt x hx y hy
    by_cases h1 : a = b1
    · rw [if_pos h1] at hx; simp at hx
    · by_cases h2 : a = b2
      · rw [if_pos h2] at hy; simp at hy
      · rw [if_neg h1, Option.mem_def, Option.some.injEq] at hx
        rw [if_neg h2, Option.mem_def, Option.some.injEq] at hy
        intro hkey
        rw [← hx, ← hy] at hkey
        simp only [keyOf, Prod.mk.injEq] at hkey
        have : b1 = b2 := by exact_mod_cast hkey.2.2.2
        omega
  · refine List.Pairwise.imp ?_ (List.pairwise_lt_range vals.length)
    intro a1 a2 hlt x hx y hy
    rw [List.mem_filterMap] at hx hy
    rcases hx with ⟨b1, _, hx⟩
    rcases hy with ⟨b2, _, hy⟩
    by_cases h1 : a1 = b1
    · rw [if_pos h1] at hx; simp at hx
    · by_cases h2 : a2 = b2
      · rw [if_pos h2] at hy; simp at hy
      · rw [if_neg h1, Option.some.injEq] at hx
        rw [if_neg h2, Option.some.injEq] at hy
        intro hkey
        rw [← hx, ← hy] at hkey
        simp only [keyOf, Prod.mk.injEq] at hkey
        have : a1 = a2 := by exact_mod_cast hkey.2.1
        omega

theorem assoc_get_addAll_pair (A : Assoc) (hwf : AssocWF A) (vals : List Int) (reward : Int)
    (a b : Nat) (ha : a < vals.length) (hb : b < vals.length) (hab : a ≠ b) :
    assoc_get (addAll A (pair_rows vals reward)) (vals.getD a 0) (a : Int)
        (vals.getD b 0) (b : Int) =
      assoc_get A (vals.getD a 0) (a : Int) (vals.getD b 0) (b : Int) + reward := by
  rw [assoc_get_addAll _ _ hwf,
      filter_map_val_single (pair_rows vals reward) (pair_rows_pairwise vals reward)
        ⟨vals.getD a 0, (a : Int), vals.getD b 0, (b : Int), reward⟩
        (mem_pair_rows vals reward a b ha hb hab) _ _ _ _ rfl]

/-- C2: for every output whose tokenized line is non-empty, update_database
computes reward = REWARD when the line is judged not redundant and
reward = -PENALTY when it is judged redundant, adds exactly that reward to the
association A(w_a, a, w_b, b) for every ordered pair (a ≠ b) of the command's
argument positions, and returns that reward. -/
theorem C2_update_database_reward (w : Words) (obs : Observations) (output : List Char)
    (cmd : List Int) (line : List Int) (hwf : AssocWF w.assoc)
    (htok : tokenize_to_indices w output = some line) :
    (update_database w obs output cmd).2.2 =
      (if (is_redundant_line_proximity line (eff_len_terminated line (CMDMAX * 4))
          obs.entries REDUNDANCY_THRESHOLD).1 then -PENALTY else REWARD) ∧
    (∀ a b : Nat, a < (cmd_args cmd).length → b < (cmd_args cmd).length → a ≠ b →
      assoc_get (update_database w obs output cmd).1.assoc
          ((cmd_args cmd).getD a 0) (a : Int) ((cmd_args cmd).getD b 0) (b : Int) =
        assoc_get w.assoc
          ((cmd_args cmd).getD a 0) (a : Int) ((cmd_args cmd).getD b 0) (b : Int) +
        (update_database w obs output cmd).2.2) := by
  have hupd : update_database w obs output cmd =
      ({ w with assoc := addAll w.assoc (pair_rows (cmd_args cmd)
          (if (is_redundant_line_proximity line (eff_len_terminated line (CMDMAX * 4))
              obs.entries REDUNDANCY_THRESHOLD).1 then -PENALTY else REWARD)) },
        (if !(is_redundant_line_proximity line (eff_len_terminated line (CMDMAX * 4))
              obs.entries REDUNDANCY_THRESHOLD).1 || STORE_REDUNDANT then
          (⟨obs.entries ++ [line]⟩ : Observations) else obs),
        (if (is_redundant_line_proximity line (eff_len_terminated line (CMDMAX * 4))
            obs.entries REDUNDANCY_THRESHOLD).1 then -PENALTY else REWARD)) := by
    rw [update_database, htok]
  rw [hupd]
  refine ⟨rfl, ?_⟩
  intro a b ha hb hab
  exact assoc_get_addAll_pair w.assoc hwf (cmd_args cmd) _ a b ha hb hab

/-- Witness for C2: vocabulary [echo, hi], output "hi", command [0, 1, -1]. -/
theorem C2_update_database_reward_witness :
    (AssocWF (Words.mk [['e', 'c', 'h', 'o'], ['h', 'i']] (assoc_init 1)).assoc ∧
      tokenize_to_indices (Words.mk [['e', 'c', 'h', 'o'], ['h', 'i']] (assoc_init 1))
        ['h', 'i'] = some [1, -1]) ∧
    ((update_database (Words.mk [['e', 'c', 'h', 'o'], ['h', 'i']] (assoc_init 1))
        (Observations.mk []) ['h', 'i'] [0, 1, -1]).2.2 =
      (if (is_redundant_line_proximity [1, -1] (eff_len_terminated [1, -1] (CMDMAX * 4))
          (Observations.mk []).entries REDUNDANCY_THRESHOLD).1 then -PENALTY else REWARD) ∧
    (∀ a b : Nat, a < (cmd_args [0, 1, -1]).length → b < (cmd_args [0, 1, -1]).length →
      a ≠ b →
      assoc_get (update_database (Words.mk [['e', 'c', 'h', 'o'], ['h', 'i']] (assoc_init 1))
          (Observations.mk []) ['h', 'i'] [0, 1, -1]).1.assoc
          ((cmd_args [0, 1, -1]).getD a 0) (a : Int) ((cmd_args [0, 1, -1]).getD b 0)
          (b : Int) =
        assoc_get (Words.mk [['e', 'c', 'h', 'o'], ['h', 'i']] (assoc_init 1)).assoc
          ((cmd_args [0, 1, -1]).getD a 0) (a : Int) ((cmd_args [0, 1, -1]).getD b 0)
          (b : Int) +
        (update_database (Words.mk [['e', 'c', 'h', 'o'], ['h', 'i']] (assoc_init 1))
          (Observations.mk []) ['h', 'i'] [0, 1, -1]).2.2)) :=
  ⟨⟨assocWF_init 1, by decide⟩,
    C2_update_database_reward (Words.mk [['e', 'c', 'h', 'o'], ['h', 'i']] (assoc_init 1))
      (Observations.mk []) ['h', 'i'] [0, 1, -1] [1, -1] (assocWF_init 1) (by decide)⟩

/-- C9: for every output string in which no whitespace-separated token equals
an existing vocabulary word (including the empty output), update_database does
not modify the observation log, returns the value 1 — which is neither REWARD
nor -PENALTY — and still adds 1 to the association of every ordered pair
(a ≠ b) of the command's argument positions. -/
theorem C9_update_database_unknown_output (w : Words) (obs : Observations)
    (output : List Char) (cmd : List Int) (hwf : AssocWF w.assoc)
    (hnone : ∀ t ∈ split_ws output, find_token_index w.token t < 0) :
    (update_database w obs output cmd).2.1 = obs ∧
    (update_database w obs output cmd).2.2 = 1 ∧
    (1 : Int) ≠ REWARD ∧ (1 : Int) ≠ -PENALTY ∧
    (∀ a b : Nat, a < (cmd_args cmd).length → b < (cmd_args cmd).length → a ≠ b →
      assoc_get (update_database w obs output cmd).1.assoc
          ((cmd_args cmd).getD a 0) (a : Int) ((cmd_args cmd).getD b 0) (b : Int) =
        assoc_get w.assoc
          ((cmd_args cmd).getD a 0) (a : Int) ((cmd_args cmd).getD b 0) (b : Int) + 1) := by
  have htok : tokenize_to_indices w output = none := by
    rw [tokenize_to_indices]
    have : (split_ws output).filterMap (fun t =>
        let idx := find_token_index w.token t
        if 0 ≤ idx then some idx else none) = [] := by
      rw [List.filterMap_eq_nil_iff]
      intro t ht
      simp only []
      rw [if_neg]
      intro hge
      exact absurd hge (not_le.mpr (hnone t ht))
    rw [this]
    simp
  have hupd : update_database w obs output cmd =
      ({ w with assoc := addAll w.assoc (pair_rows (cmd_args cmd) 1) }, obs, 1) := by
    rw [update_database, htok]
  rw [hupd]
  refine ⟨rfl, rfl, by decide, by decide, ?_⟩
  intro a b ha hb hab
  exact assoc_get_addAll_pair w.assoc hwf (cmd_args cmd) 1 a b ha hb hab

/-- Witness for C9: vocabulary [echo], output "zz qq", command [0, -1]. -/
theorem C9_update_database_unknown_output_witness :
    (AssocWF (Words.mk [['e', 'c', 'h', 'o']] (assoc_init 1)).assoc ∧
      (∀ t ∈ split_ws ['z', 'z', ' ', 'q', 'q'],
        find_token_index (Words.mk [['e', 'c', 'h', 'o']] (assoc_init 1)).token t < 0)) ∧
    ((update_database (Words.mk [['e', 'c', 'h', 'o']] (assoc_init 1)) (Observations.mk [])
        ['z', 'z', ' ', 'q', 'q'] [0, -1]).2.1 = Observations.mk [] ∧
      (update_database (Words.mk [['e', 'c', 'h', 'o']] (assoc_init 1)) (Observations.mk [])
        ['z', 'z', ' ', 'q', 'q'] [0, -1]).2.2 = 1 ∧
      (1 : Int) ≠ REWARD ∧ (1 : Int) ≠ -PENALTY ∧
      (∀ a b : Nat, a < (cmd_args [0, -1]).length → b < (cmd_args [0, -1]).length → a ≠ b →
        assoc_get (update_database (Words.mk [['e', 'c', 'h', 'o']] (assoc_init 1))
            (Observations.mk []) ['z', 'z', ' ', 'q', 'q'] [0, -1]).1.assoc
            ((cmd_args [0, -1]).getD a 0) (a : Int) ((cmd_args [0, -1]).getD b 0) (b : Int) =
          assoc_get (Words.mk [['e', 'c', 'h', 'o']] (assoc_init 1)).assoc
            ((cmd_args [0, -1]).getD a 0) (a : Int) ((cmd_args [0, -1]).getD b 0)
            (b : Int) + 1)) :=
  ⟨⟨assocWF_init 1, by decide⟩,
    C9_update_database_unknown_output (Words.mk [['e', 'c', 'h', 'o']] (assoc_init 1))
      (Observations.mk []) ['z', 'z', ' ', 'q', 'q'] [0, -1] (assocWF_init 1) (by decide)⟩

/-! Command synthesizer, from src/command.c.  rand() is modelled as an oracle
stream of naturals; every theorem holds for every oracle. -/

structure CommandSettings where
  length : Int
  scope : Int

structure Rng where
  g : Nat → Nat
  ctr : Nat

/-- One call to rand(). -/
def randNext (r : Rng) : Nat × Rng := (r.g r.ctr, ⟨r.g, r.ctr + 1⟩)

/-- rand_between from command.c: lo when the range is trivial, else
lo + rand() % span. -/
def rand_between (r : Rng) (lo hi : Nat) : Nat × Rng :=
  if hi ≤ lo then (lo, r)
  else
    let p := randNext r
    (lo + p.1 % (hi - lo + 1), p.2)

/-- The swap in the Fisher-Yates loop: tmp = arr[i]; arr[i] = arr[j]; arr[j] = tmp. -/
def listSwap (l : List Int) (i j : Nat) : List Int :=
  (l.set i (l.getD j 0)).set j (l.getD i 0)

/-- Loop of partial_shuffle from command.c; the fuel counts the remaining
iterations (k - i), the loop also stops when i reaches the array length. -/
def fy_shuffleAux : Nat → List Int → Nat → Rng → List Int × Rng
  | 0, arr, _, r => (arr, r)
  | Nat.succ fuel, arr, i, r =>
      if i < arr.length then
        let p := rand_between r i (arr.length - 1)
        fy_shuffleAux fuel (listSwap arr i p.1) (i + 1) p.2
      else (arr, r)

/-- partial_shuffle from command.c: promote k unique items to the front. -/
def fy_shuffle (arr : List Int) (k : Nat) (r : Rng) : List Int × Rng :=
  fy_shuffleAux k arr 0 r

/-- Loop of pair_score from command.c: the candidate w at slot pos against each
already chosen argument, in both directions of the asymmetric map. -/
def pair_scoreAux (A : Assoc) (N : Nat) (w : Int) (pos : Nat) :
    List Int → Nat → Int
  | [], _ => 0
  | wq :: rest, q =>
      (if wq < 0 ∨ ¬ (0 ≤ w ∧ w < (N : Int)) ∨ ¬ (wq < (N : Int)) then 0
       else assoc_get A w (pos : Int) wq (q : Int) + assoc_get A wq (q : Int) w (pos : Int)) +
      pair_scoreAux A N w pos rest (q + 1)

def pair_score (A : Assoc) (N : Nat) (w : Int) (pos : Nat) (chosen : List Int) : Int :=
  pair_scoreAux A N w pos chosen 0

/-- LONG_MIN, the initial best score in greedy_pick. -/
def LONG_MIN : Int := -9223372036854775808

/-- greedy_pick from command.c: index of the best-scoring candidate in the
sample window, ties broken uniformly at random (tie list capped at
LINEBUFFER); -1 when the window is empty. -/
def greedy_pick (A : Assoc) (N : Nat) (cands : List Int) (cand_cnt : Nat)
    (chosen : List Int) (pos : Nat) (r : Rng) : Int × Rng :=
  let st := (List.range cand_cnt).foldl (fun st i =>
      let s := pair_score A N (cands.getD i 0) pos chosen
      if s > st.1 then (s, [i])
      else if s = st.1 ∧ st.2.length < LINEBUFFER then (st.1, st.2 ++ [i])
      else st) (LONG_MIN, ([] : List Nat))
  if st.2.length = 0 then
    if 0 < cand_cnt then
      let p := rand_between r 0 (cand_cnt - 1)
      ((p.1 : Int), p.2)
    else (-1, r)
  else
    let p := rand_between r 0 (st.2.length - 1)
    ((st.2.getD p.1 0 : Int), p.2)

/-- sample_size computation of construct_command (lines 181-183 of command.c):
(int)((double)N * CLAMP(scope, SRCHMIN, SRCHMAX) / 100.0 + 0.5), then clamped
to [1, N].  The double arithmetic is exact at every decision boundary
(multiples of 1/2 are dyadic), so the rational floor is faithful. -/
def sample_size_of (N : Nat) (scope : Int) : Nat :=
  let raw : Int := Int.floor ((N : ℚ) * ((clampInt scope SRCHMIN SRCHMAX : Int) : ℚ) / 100 + 1 / 2)
  let s1 : Int := if raw < 1 then 1 else raw
  (if s1 > (N : Int) then (N : Int) else s1).toNat

/-- Index selection of one loop iteration of construct_command: the greedy
pick, with the random fallback when it reports no candidate. -/
def greedy_step_index (A : Assoc) (N : Nat) (cands : List Int) (ssz2 : Nat)
    (chosen : List Int) (r : Rng) : Nat × Rng :=
  let g := greedy_pick A N cands (Nat.succ ssz2) chosen chosen.length r
  if g.1 < 0 then rand_between g.2 0 ssz2 else (g.1.toNat, g.2)

/-- Greedy construction loop of construct_command: while argc < want_len and
the sample window is non-empty, append the greedy pick and shrink the window
by swapping with its last slot. -/
def greedy_loop (A : Assoc) (N : Nat) (wl : Nat) :
    Nat → List Int → List Int → Rng → List Int × Rng
  | 0, _, chosen, r => (chosen, r)
  | Nat.succ ssz2, cands, chosen, r =>
      if chosen.length < wl then
        let pr := greedy_step_index A N cands ssz2 chosen r
        greedy_loop A N wl ssz2 (cands.set pr.1 (cands.getD ssz2 0))
          (chosen ++ [cands.getD pr.1 0]) pr.2
      else (chosen, r)

/-- construct_command from command.c.  Returns the -1-terminated index
sequence, argc, and the advanced oracle.  The candidate-pool allocation always
succeeds in the model. -/
def construct_command (words : Words) (settings : CommandSettings) (r : Rng) :
    List Int × Nat × Rng :=
  let want_len0 := clampInt settings.length (CMDMIN : Int) (CMDMAX : Int)
  let N := words.token.length
  if N = 0 then ([IDX_TERMINATOR], 0, r)
  else
    let want_len : Int := if want_len0 > (N : Int) then (N : Int) else want_len0
    let ssz := sample_size_of N settings.scope
    let sh := fy_shuffle ((List.range N).map Int.ofNat) ssz r
    let p := rand_between sh.2 0 (ssz - 1)
    let w0 := sh.1.getD p.1 0
    let cands2 := sh.1.set p.1 (sh.1.getD (ssz - 1) 0)
    let res := greedy_loop words.assoc N want_len.toNat (ssz - 1) cands2 [w0] p.2
    (res.1 ++ [IDX_TERMINATOR], res.1.length, res.2)

example : sample_size_of 150 0 = 2 := by with_unfolding_all decide

example : sample_size_of 42 0 = 1 := by with_unfolding_all decide

example : sample_size_of 10 100 = 10 := by with_unfolding_all decide

example :
    (construct_command (Words.mk [['a'], ['b'], ['c']] (assoc_init 1))
      (CommandSettings.mk 2 100) (Rng.mk (fun _ => 0) 0)).2.1 = 2 := by
  with_unfolding_all decide

example :
    (construct_command (Words.mk [] (assoc_init 1))
      (CommandSettings.mk 2 100) (Rng.mk (fun _ => 0) 0)).1 = [-1] := by
  with_unfolding_all decide

/-! Lemmas for the synthesizer invariants. -/

theorem rand_between_le (r : Rng) (lo hi : Nat) (h : lo ≤ hi) :
    lo ≤ (rand_between r lo hi).1 ∧ (rand_between r lo hi).1 ≤ hi := by
  rw [rand_between]
  split
  · exact ⟨Nat.le_refl lo, h⟩
  · simp only []
    have hm : (randNext r).1 % (hi - lo + 1) < hi - lo + 1 :=
      Nat.mod_lt _ (Nat.succ_pos _)
    omega

theorem list_count_set (l : List Int) (n : Nat) (v : Int) (h : n < l.length) (a : Int) :
    (l.set n v).count a + (if l.getD n 0 = a then 1 else 0) =
      l.count a + (if v = a then 1 else 0) := by
  conv_rhs => rw [list_getD_decomp l n 0 h]
  rw [list_set_decomp l n v h]
  by_cases h1 : l.getD n 0 = a <;> by_cases h2 : v = a <;>
    simp [List.count_append, List.count_cons, h1, h2] <;> omega

theorem set_getD_self (l : List Int) (i : Nat) : l.set i (l.getD i 0) = l := by
  apply List.ext_getElem?
  intro m
  rw [List.getElem?_set]
  by_cases him : i = m
  · subst him
    by_cases hil : i < l.length
    · rw [if_pos rfl, if_pos hil, List.getD_eq_getElem l 0 hil,
          List.getElem?_eq_getElem hil]
    · rw [if_pos rfl, if_neg hil, List.getElem?_eq_none]
      omega
  · rw [if_neg him]

theorem listSwap_perm (l : List Int) (i j : Nat) (hi : i < l.length) (hj : j < l.length) :
    (listSwap l i j).Perm l := by
  by_cases hij : i = j
  · subst hij
    rw [listSwap, List.set_set, set_getD_self]
  · rw [List.perm_iff_count]
    intro a
    rw [listSwap]
    have hlen1 : j < (l.set i (l.getD j 0)).length := by rwa [List.length_set]
    have e1 := list_count_set l i (l.getD j 0) hi a
    have e2 := list_count_set (l.set i (l.getD j 0)) j (l.getD i 0) hlen1 a
    rw [list_getD_set_ne _ _ _ _ _ hij] at e2
    by_cases h1 : l.getD i 0 = a <;> by_cases h2 : l.getD j 0 = a
    · rw [if_pos h1] at e1 e2
      rw [if_pos h2] at e1 e2
      omega
    · rw [if_pos h1] at e1 e2
      rw [if_neg h2] at e1 e2
      omega
    · rw [if_neg h1] at e1 e2
      rw [if_pos h2] at e1 e2
      omega
    · rw [if_neg h1] at e1 e2
      rw [if_neg h2] at e1 e2
      omega

theorem fy_shuffleAux_perm (fuel : Nat) :
    ∀ (arr : List Int) (i : Nat) (r : Rng), (fy_shuffleAux fuel arr i r).1.Perm arr := by
  induction fuel with
  | zero => intro arr i r; exact List.Perm.refl arr
  | succ f ih =>
    intro arr i r
    rw [fy_shuffleAux]
    split
    · rename_i hlt
      have hj := rand_between_le r i (arr.length - 1) (by omega)
      have hjlt : (rand_between r i (arr.length - 1)).1 < arr.length := by omega
      exact (ih _ _ _).trans (listSwap_perm arr i _ hlt hjlt)
    · exact List.Perm.refl arr

theorem fy_shuffle_perm (arr : List Int) (k : Nat) (r : Rng) :
    (fy_shuffle arr k r).1.Perm arr := fy_shuffleAux_perm k arr 0 r

theorem take_set_ge {α : Type} (l : List α) (n : Nat) (v : α) (m : Nat) (h : m ≤ n) :
    (l.set n v).take m = l.take m := by
  apply List.ext_getElem?
  intro idx
  rw [List.getElem?_take, List.getElem?_take]
  split
  · rename_i hidx
    rw [List.getElem?_set_ne]
    omega
  · rfl

theorem take_set_lt {α : Type} (l : List α) (n : Nat) (v : α) (m : Nat) (h : n < m) :
    (l.set n v).take m = (l.take m).set n v := by
  apply List.ext_getElem?
  intro idx
  by_cases hidx : idx < m
  · rw [List.getElem?_take, if_pos hidx, List.getElem?_set, List.getElem?_set,
        List.getElem?_take, if_pos hidx]
    by_cases hn : n = idx
    · subst hn
      rw [if_pos rfl, if_pos rfl, List.length_take]
      by_cases hnl : n < l.length
      · rw [if_pos hnl, if_pos (lt_inf_iff.mpr ⟨h, hnl⟩)]
      · rw [if_neg hnl, if_neg (fun hc => hnl (lt_inf_iff.mp hc).2)]
    · rw [if_neg hn, if_neg hn]
  · rw [List.getElem?_take, if_neg hidx, List.getElem?_set,
        if_neg (by omega : ¬ n = idx), List.getElem?_take_eq_none (by omega)]

theorem swap_remove_perm (l : List Int) (p ssz : Nat) (hp : p < ssz) (hs : ssz ≤ l.length) :
    ((l.set p (l.getD (ssz - 1) 0)).take (ssz - 1)).Perm ((l.take ssz).eraseIdx p) := by
  by_cases hlast : p = ssz - 1
  · subst hlast
    rw [take_set_ge l _ _ _ (Nat.le_refl _)]
    have he : (l.take ssz).eraseIdx (ssz - 1) = l.take (ssz - 1) := by
      rw [List.eraseIdx_eq_take_drop_succ]
      have h1 : ssz - 1 + 1 = ssz := by omega
      rw [h1, List.drop_eq_nil_of_le (by rw [List.length_take]; omega), List.append_nil,
          List.take_take]
      congr 1
      omega
    rw [he]
  · have hp1 : p < ssz - 1 := by omega
    have hs1 : ssz - 1 < l.length := by omega
    rw [take_set_lt l _ _ _ hp1]
    have hlenU : (l.take (ssz - 1)).length = ssz - 1 := by
      rw [List.length_take]; omega
    have hW : l.take ssz = l.take (ssz - 1) ++ [l.getD (ssz - 1) 0] := by
      have h1 : ssz = (ssz - 1) + 1 := by omega
      conv_lhs => rw [h1]
      rw [List.take_succ, List.getElem?_eq_getElem hs1, List.getD_eq_getElem l 0 hs1]
      rfl
    rw [hW, List.eraseIdx_append_of_lt_length (by omega),
        list_set_decomp _ _ _ (by omega), List.eraseIdx_eq_take_drop_succ,
        List.append_assoc]
    exact List.Perm.append_left _ (List.perm_append_singleton _ _).symm

theorem take_perm_cons_eraseIdx (W : List Int) (p : Nat) (hp : p < W.length) :
    W.Perm (W.getD p 0 :: W.eraseIdx p) := by
  conv_lhs => rw [list_getD_decomp W p 0 hp]
  rw [List.eraseIdx_eq_take_drop_succ]
  exact List.perm_middle

/-- Invariant of the construction state: the array has length N, the sample
window (its first ssz entries) together with the chosen arguments is
duplicate-free, and every index is in range. -/
def WindowInv (N : Nat) (cands : List Int) (ssz : Nat) (chosen : List Int) : Prop :=
  cands.length = N ∧ ssz ≤ N ∧
  (chosen ++ cands.take ssz).Nodup ∧
  ∀ x ∈ chosen ++ cands.take ssz, 0 ≤ x ∧ x < (N : Int)

theorem pick_step (N : Nat) (cands : List Int) (ssz : Nat) (chosen : List Int) (p : Nat)
    (hp : p < ssz) (hInv : WindowInv N cands ssz chosen) :
    WindowInv N (cands.set p (cands.getD (ssz - 1) 0)) (ssz - 1)
      (chosen ++ [cands.getD p 0]) := by
  obtain ⟨hlen, hssz, hnd, hmem⟩ := hInv
  have hsl : ssz ≤ cands.length := by omega
  have hpw : p < (cands.take ssz).length := by rw [List.length_take]; omega
  have hgd : (cands.take ssz).getD p 0 = cands.getD p 0 := by
    rw [List.getD_eq_getElem _ _ hpw, List.getElem_take, List.getD_eq_getElem _ _ (by omega)]
  have hperm0 : (cands.take ssz).Perm (cands.getD p 0 :: (cands.take ssz).eraseIdx p) := by
    have h := take_perm_cons_eraseIdx (cands.take ssz) p hpw
    rwa [hgd] at h
  have hpermW : ((cands.set p (cands.getD (ssz - 1) 0)).take (ssz - 1)).Perm
      ((cands.take ssz).eraseIdx p) := swap_remove_perm cands p ssz hp hsl
  have hbig : ((chosen ++ [cands.getD p 0]) ++
      (cands.set p (cands.getD (ssz - 1) 0)).take (ssz - 1)).Perm
      (chosen ++ cands.take ssz) := by
    rw [List.append_assoc, List.singleton_append]
    exact (List.Perm.append_left chosen ((hpermW.cons _).trans hperm0.symm))
  refine ⟨by rw [List.length_set]; exact hlen, by omega, hbig.nodup_iff.mpr hnd, ?_⟩
  intro x hx
  exact hmem x (hbig.subset hx)

theorem foldl_pick_mem (Q : Nat → Prop) (F : (Int × List Nat) → Nat → (Int × List Nat))
    (hF : ∀ st i, Q i → (∀ x ∈ st.2, Q x) → ∀ x ∈ (F st i).2, Q x) :
    ∀ (l : List Nat), (∀ i ∈ l, Q i) → ∀ (st : Int × List Nat),
      (∀ x ∈ st.2, Q x) → ∀ x ∈ (l.foldl F st).2, Q x := by
  intro l
  induction l with
  | nil => intro _ st hst x hx; exact hst x hx
  | cons i l ih =>
    intro hl st hst
    rw [List.foldl_cons]
    exact ih (fun j hj => hl j (List.mem_cons_of_mem i hj))
      (F st i) (hF st i (hl i (List.mem_cons_self i l)) hst)

theorem greedy_pick_bound (A : Assoc) (N : Nat) (cands : List Int) (cand_cnt : Nat)
    (chosen : List Int) (pos : Nat) (r : Rng) (h : 0 < cand_cnt) :
    0 ≤ (greedy_pick A N cands cand_cnt chosen pos r).1 ∧
    (greedy_pick A N cands cand_cnt chosen pos r).1 < (cand_cnt : Int) := by
  have hsub : ∀ x ∈ ((List.range cand_cnt).foldl (fun st i =>
      let s := pair_score A N (cands.getD i 0) pos chosen
      if s > st.1 then (s, [i])
      else if s = st.1 ∧ st.2.length < LINEBUFFER then (st.1, st.2 ++ [i])
      else st) (LONG_MIN, ([] : List Nat))).2, x < cand_cnt := by
    refine foldl_pick_mem (fun x => x < cand_cnt) _ ?_ (List.range cand_cnt)
      (fun i hi => List.mem_range.mp hi) _ (fun x hx => by simp at hx)
    intro st i hi hst x hx
    simp only [] at hx
    split at hx
    · rcases List.mem_singleton.mp hx with rfl
      exact hi
    · split at hx
      · rcases List.mem_append.mp hx with hx1 | hx2
        · exact hst x hx1
        · rcases List.mem_singleton.mp hx2 with rfl
          exact hi
      · exact hst x hx
  rw [greedy_pick]
  simp only []
  split
  · have hb := rand_between_le r 0 (cand_cnt - 1) (by omega)
    refine ⟨Int.ofNat_nonneg _, ?_⟩
    show ((rand_between r 0 (cand_cnt - 1)).1 : Int) < (cand_cnt : Int)
    exact_mod_cast (by omega : (rand_between r 0 (cand_cnt - 1)).1 < cand_cnt)
  · rename_i hz
    set st := (List.range cand_cnt).foldl (fun st i =>
        let s := pair_score A N (cands.getD i 0) pos chosen
        if s > st.1 then (s, [i])
        else if s = st.1 ∧ st.2.length < LINEBUFFER then (st.1, st.2 ++ [i])
        else st) (LONG_MIN, ([] : List Nat)) with hst
    have hlenpos : 0 < st.2.length := Nat.pos_of_ne_zero hz
    have hb := rand_between_le r 0 (st.2.length - 1) (by omega)
    have hmemd : st.2.getD (rand_between r 0 (st.2.length - 1)).1 0 ∈ st.2 :=
      list_getD_mem _ _ 0 (by omega)
    have hlt := hsub _ hmemd
    refine ⟨Int.ofNat_nonneg _, ?_⟩
    show ((st.2.getD (rand_between r 0 (st.2.length - 1)).1 0 : Nat) : Int) < (cand_cnt : Int)
    exact_mod_cast hlt

theorem greedy_step_index_lt (A : Assoc) (N : Nat) (cands : List Int) (ssz2 : Nat)
    (chosen : List Int) (r : Rng) :
    (greedy_step_index A N cands ssz2 chosen r).1 < Nat.succ ssz2 := by
  simp only [greedy_step_index]
  have hb := greedy_pick_bound A N cands (Nat.succ ssz2) chosen chosen.length r
    (Nat.succ_pos ssz2)
  split
  · have := rand_between_le (greedy_pick A N cands (Nat.succ ssz2) chosen
      chosen.length r).2 0 ssz2 (Nat.zero_le ssz2)
    omega
  · omega

theorem greedy_loop_inv (A : Assoc) (N wl : Nat) :
    ∀ (ssz : Nat) (cands chosen : List Int) (r : Rng),
      WindowInv N cands ssz chosen → chosen.length ≤ wl →
      (greedy_loop A N wl ssz cands chosen r).1.Nodup ∧
      (∀ x ∈ (greedy_loop A N wl ssz cands chosen r).1, 0 ≤ x ∧ x < (N : Int)) ∧
      chosen.length ≤ (greedy_loop A N wl ssz cands chosen r).1.length ∧
      (greedy_loop A N wl ssz cands chosen r).1.length ≤ wl := by
  intro ssz
  induction ssz with
  | zero =>
    intro cands chosen r hInv hlen
    obtain ⟨_, _, hnd, hmem⟩ := hInv
    rw [greedy_loop]
    refine ⟨(List.nodup_append.mp hnd).1, ?_, Nat.le_refl _, hlen⟩
    intro x hx
    exact hmem x (List.mem_append_left _ hx)
  | succ ssz2 ih =>
    intro cands chosen r hInv hlen
    rw [greedy_loop]
    by_cases hcl : chosen.length < wl
    · rw [if_pos hcl]
      simp only []
      have hplt : (greedy_step_index A N cands ssz2 chosen r).1 < Nat.succ ssz2 :=
        greedy_step_index_lt A N cands ssz2 chosen r
      have hInv2 := pick_step N cands (Nat.succ ssz2) chosen
        (greedy_step_index A N cands ssz2 chosen r).1 hplt hInv
      have hlen2 : (chosen ++ [cands.getD (greedy_step_index A N cands ssz2 chosen r).1 0]).length ≤ wl := by
        rw [List.length_append, List.length_singleton]
        omega
      have hrec := ih (cands.set (greedy_step_index A N cands ssz2 chosen r).1
          (cands.getD ssz2 0))
        (chosen ++ [cands.getD (greedy_step_index A N cands ssz2 chosen r).1 0])
        (greedy_step_index A N cands ssz2 chosen r).2 (by simpa using hInv2) hlen2
      refine ⟨hrec.1, hrec.2.1, ?_, hrec.2.2.2⟩
      have := hrec.2.2.1
      rw [List.length_append, List.length_singleton] at this
      omega
    · rw [if_neg hcl]
      obtain ⟨_, _, hnd, hmem⟩ := hInv
      refine ⟨(List.nodup_append.mp hnd).1, ?_, Nat.le_refl _, hlen⟩
      intro x hx
      exact hmem x (List.mem_append_left _ hx)

theorem sample_size_of_bounds (N : Nat) (scope : Int) (hN : 1 ≤ N) :
    1 ≤ sample_size_of N scope ∧ sample_size_of N scope ≤ N := by
  simp only [sample_size_of]
  set raw : Int := Int.floor ((N : ℚ) * ((clampInt scope SRCHMIN SRCHMAX : Int) : ℚ) / 100 + 1 / 2)
  by_cases h1 : raw < 1
  · rw [if_pos h1]
    rw [if_neg (by omega)]
    omega
  · rw [if_neg h1]
    by_cases h2 : raw > (N : Int)
    · rw [if_pos h2]
      omega
    · rw [if_neg h2]
      omega

theorem clampInt_eq_self (x lo hi : Int) (h1 : lo ≤ x) (h2 : x ≤ hi) :
    clampInt x lo hi = x := by
  rw [clampInt, if_neg (by omega), if_neg (by omega)]

theorem clampInt_mem (x lo hi : Int) (h : lo ≤ hi) :
    lo ≤ clampInt x lo hi ∧ clampInt x lo hi ≤ hi := by
  rw [clampInt]
  split
  · omega
  · split
    · omega
    · omega

/-- Core of the synthesizer guarantee for a non-empty vocabulary: the chosen
prefix is duplicate-free, in range, non-empty, and bounded by the clamped
length. -/
theorem construct_command_core (w : Words) (settings : CommandSettings) (r : Rng)
    (hN : w.token.length ≠ 0) :
    ∃ cs : List Int,
      (construct_command w settings r).1 = cs ++ [IDX_TERMINATOR] ∧
      (construct_command w settings r).2.1 = cs.length ∧
      cs.Nodup ∧
      (∀ x ∈ cs, 0 ≤ x ∧ x < (w.token.length : Int)) ∧
      1 ≤ cs.length ∧
      (cs.length : Int) ≤
        (if clampInt settings.length (CMDMIN : Int) (CMDMAX : Int) > (w.token.length : Int)
          then (w.token.length : Int)
          else clampInt settings.length (CMDMIN : Int) (CMDMAX : Int)) := by
  have hN1 : 1 ≤ w.token.length := Nat.pos_of_ne_zero hN
  obtain ⟨hs1, hs2⟩ := sample_size_of_bounds w.token.length settings.scope hN1
  obtain ⟨hc1, hc2⟩ := clampInt_mem settings.length (CMDMIN : Int) (CMDMAX : Int)
    (by rw [CMDMIN, CMDMAX]; omega)
  simp only [construct_command]
  rw [if_neg hN]
  set N := w.token.length with hNdef
  set ssz := sample_size_of N settings.scope with hsszdef
  set clamped := clampInt settings.length (CMDMIN : Int) (CMDMAX : Int) with hclampdef
  set wlI : Int := if clamped > (N : Int) then (N : Int) else clamped with hwlIdef
  have hwlI1 : 1 ≤ wlI := by
    rw [hwlIdef]
    split
    · exact_mod_cast hN1
    · rw [hclampdef]
      rw [CMDMIN] at hc1
      omega
  have hwlIN : wlI ≤ (N : Int) ∨ wlI = clamped := by
    rw [hwlIdef]
    split
    · exact Or.inl (le_refl _)
    · exact Or.inr rfl
  -- shuffled pool
  set cands1 := (fy_shuffle ((List.range N).map Int.ofNat) ssz r).1 with hc1def
  have hperm : cands1.Perm ((List.range N).map Int.ofNat) :=
    fy_shuffle_perm _ ssz r
  have hlen1 : cands1.length = N := by
    rw [hperm.length_eq, List.length_map, List.length_range]
  have hnd1 : cands1.Nodup := by
    refine hperm.nodup_iff.mpr ?_
    exact (List.nodup_range N).map (fun _ _ h => Int.ofNat.inj h)
  have hmem1 : ∀ x ∈ cands1, 0 ≤ x ∧ x < (N : Int) := by
    intro x hx
    rcases List.mem_map.mp (hperm.subset hx) with ⟨n, hn, rfl⟩
    have := List.mem_range.mp hn
    rw [Int.ofNat_eq_coe]
    constructor
    · exact Int.natCast_nonneg n
    · omega
  have hInv0 : WindowInv N cands1 ssz [] := by
    refine ⟨hlen1, hs2, ?_, ?_⟩
    · rw [List.nil_append]
      exact hnd1.sublist (List.take_sublist ssz cands1)
    · intro x hx
      rw [List.nil_append] at hx
      exact hmem1 x ((List.take_sublist ssz cands1).mem hx)
  set p := rand_between (fy_shuffle ((List.range N).map Int.ofNat) ssz r).2
    0 (ssz - 1) with hpdef
  have hput : p.1 < ssz := by
    have h := rand_between_le (fy_shuffle ((List.range N).map Int.ofNat) ssz r).2
      0 (ssz - 1) (by omega)
    rw [← hpdef] at h
    omega
  have hInv1 := pick_step N cands1 ssz [] p.1 hput hInv0
  rw [List.nil_append] at hInv1
  have hloop := greedy_loop_inv w.assoc N wlI.toNat (ssz - 1)
    (cands1.set p.1 (cands1.getD (ssz - 1) 0)) [cands1.getD p.1 0] p.2 hInv1
    (by rw [List.length_singleton]; omega)
  refine ⟨(greedy_loop w.assoc N wlI.toNat (ssz - 1)
    (cands1.set p.1 (cands1.getD (ssz - 1) 0)) [cands1.getD p.1 0] p.2).1, rfl, rfl,
    hloop.1, hloop.2.1, ?_, ?_⟩
  · have := hloop.2.2.1
    rw [List.length_singleton] at this
    omega
  · have := hloop.2.2.2
    omega

/-- C1: for every vocabulary B and every settings record (whose length field
satisfies the data-model bounds CMDMIN ≤ length ≤ CMDMAX) and every random
oracle, construct_command returns an index sequence of length argc with
0 ≤ argc ≤ min(settings.length, numWords), whose slot argc holds the
terminator -1, which contains no duplicate indices and no index outside
[0, numWords); and when numWords = 0 it returns the empty sequence
(terminator at position 0). -/
theorem C1_construct_command (w : Words) (settings : CommandSettings) (r : Rng)
    (hlen1 : (CMDMIN : Int) ≤ settings.length) (hlen2 : settings.length ≤ (CMDMAX : Int)) :
    ∃ cs : List Int,
      (construct_command w settings r).1 = cs ++ [IDX_TERMINATOR] ∧
      (construct_command w settings r).2.1 = cs.length ∧
      cs.Nodup ∧
      (∀ x ∈ cs, 0 ≤ x ∧ x < (w.token.length : Int)) ∧
      ((construct_command w settings r).2.1 : Int) ≤
        min settings.length (w.token.length : Int) ∧
      (w.token.length = 0 →
        (construct_command w settings r).2.1 = 0 ∧
        (construct_command w settings r).1 = [IDX_TERMINATOR]) := by
  have hc1 : (CMDMIN : Int) = 1 := rfl
  by_cases hN : w.token.length = 0
  · have h0 : construct_command w settings r = ([IDX_TERMINATOR], 0, r) := by
      simp only [construct_command]
      rw [if_pos hN]
    refine ⟨[], by rw [h0]; rfl, by rw [h0]; rfl, List.nodup_nil, by simp, ?_,
      fun _ => ⟨by rw [h0], by rw [h0]⟩⟩
    rw [h0, hN]
    simp only []
    refine le_min (by omega) (by omega)
  · obtain ⟨cs, h1, h2, h3, h4, h5, h6⟩ := construct_command_core w settings r hN
    refine ⟨cs, h1, h2, h3, h4, ?_, fun hcc => absurd hcc hN⟩
    rw [h2]
    have hcl : clampInt settings.length (CMDMIN : Int) (CMDMAX : Int) = settings.length :=
      clampInt_eq_self _ _ _ hlen1 hlen2
    rw [hcl] at h6
    by_cases hgt : settings.length > (w.token.length : Int)
    · rw [if_pos hgt] at h6
      rw [min_eq_right (le_of_lt hgt)]
      exact h6
    · rw [if_neg hgt] at h6
      rw [min_eq_left (by omega)]
      exact h6

/-- Witness for C1 at a three-word vocabulary, length 2, scope 100. -/
theorem C1_construct_command_witness :
    ((CMDMIN : Int) ≤ (CommandSettings.mk 2 100).length ∧
      (CommandSettings.mk 2 100).length ≤ (CMDMAX : Int)) ∧
    (∃ cs : List Int,
      (construct_command (Words.mk [['a'], ['b'], ['c']] (assoc_init 1))
        (CommandSettings.mk 2 100) (Rng.mk (fun _ => 0) 0)).1 = cs ++ [IDX_TERMINATOR] ∧
      (construct_command (Words.mk [['a'], ['b'], ['c']] (assoc_init 1))
        (CommandSettings.mk 2 100) (Rng.mk (fun _ => 0) 0)).2.1 = cs.length ∧
      cs.Nodup ∧
      (∀ x ∈ cs, 0 ≤ x ∧
        x < ((Words.mk [['a'], ['b'], ['c']] (assoc_init 1)).token.length : Int)) ∧
      ((construct_command (Words.mk [['a'], ['b'], ['c']] (assoc_init 1))
          (CommandSettings.mk 2 100) (Rng.mk (fun _ => 0) 0)).2.1 : Int) ≤
        min (CommandSettings.mk 2 100).length
          ((Words.mk [['a'], ['b'], ['c']] (assoc_init 1)).token.length : Int) ∧
      ((Words.mk [['a'], ['b'], ['c']] (assoc_init 1)).token.length = 0 →
        (construct_command (Words.mk [['a'], ['b'], ['c']] (assoc_init 1))
          (CommandSettings.mk 2 100) (Rng.mk (fun _ => 0) 0)).2.1 = 0 ∧
        (construct_command (Words.mk [['a'], ['b'], ['c']] (assoc_init 1))
          (CommandSettings.mk 2 100) (Rng.mk (fun _ => 0) 0)).1 = [IDX_TERMINATOR])) :=
  ⟨⟨by decide, by decide⟩,
    C1_construct_command (Words.mk [['a'], ['b'], ['c']] (assoc_init 1))
      (CommandSettings.mk 2 100) (Rng.mk (fun _ => 0) 0) (by decide) (by decide)⟩

/-- C10: for every vocabulary with numWords ≥ 1 and every settings record,
construct_command (allocation always succeeds in the model) returns argc ≥ 1:
the initial random seed pick always places one word, so the empty command
occurs only when the vocabulary is empty. -/
theorem C10_construct_command_nonempty (w : Words) (settings : CommandSettings) (r : Rng)
    (hN : 1 ≤ w.token.length) :
    1 ≤ (construct_command w settings r).2.1 ∧
    ((construct_command w settings r).2.1 = 0 → w.token.length = 0) := by
  obtain ⟨cs, h1, h2, h3, h4, h5, h6⟩ := construct_command_core w settings r (by omega)
  constructor
  · rw [h2]
    exact h5
  · intro hz
    rw [h2] at hz
    omega

/-- Witness for C10 at a three-word vocabulary. -/
theorem C10_construct_command_nonempty_witness :
    1 ≤ (Words.mk [['a'], ['b'], ['c']] (assoc_init 1)).token.length ∧
    (1 ≤ (construct_command (Words.mk [['a'], ['b'], ['c']] (assoc_init 1))
        (CommandSettings.mk 5 0) (Rng.mk (fun n => n) 0)).2.1 ∧
      ((construct_command (Words.mk [['a'], ['b'], ['c']] (assoc_init 1))
        (CommandSettings.mk 5 0) (Rng.mk (fun n => n) 0)).2.1 = 0 →
        (Words.mk [['a'], ['b'], ['c']] (assoc_init 1)).token.length = 0)) :=
  ⟨by decide,
    C10_construct_command_nonempty (Words.mk [['a'], ['b'], ['c']] (assoc_init 1))
      (CommandSettings.mk 5 0) (Rng.mk (fun n => n) 0) (by decide)⟩

/-- C8 counterexample: with scope 0 (clamped to SRCHMIN = 1 percent) and a
vocabulary of 150 words, the sample size is round(150 × 1 / 100) = 2, not 1. -/
theorem C8_counterexample : sample_size_of 150 0 = 2 ∧ sample_size_of 150 0 ≠ 1 := by
  with_unfolding_all decide

set_option maxRecDepth 8000 in
/-- C8 (amended): for every vocabulary with 1 ≤ numWords ≤ 149, command
synthesis invoked with scope = 0 computes sample_size = 1 (scope is clamped to
1 percent first, so beyond 149 words the rounded sample exceeds 1). -/
theorem C8_sample_size_scope_zero (N : Nat) (h1 : 1 ≤ N) (h2 : N ≤ 149) :
    sample_size_of N 0 = 1 := by
  have hall : ∀ M : Nat, M < 150 → 1 ≤ M → sample_size_of M 0 = 1 := by
    with_unfolding_all decide
  exact hall N (by omega) h1

/-- Witness for C8 (amended) at numWords = 42. -/
theorem C8_sample_size_scope_zero_witness :
    (1 ≤ 42 ∧ 42 ≤ 149) ∧ sample_size_of 42 0 = 1 :=
  ⟨⟨by decide, by decide⟩, C8_sample_size_scope_zero 42 (by decide) (by decide)⟩

/-! Trend tracker, from src/trend.c.  Double-precision averages are modelled
as exact rationals. -/

structure LearningTrendTracker where
  window_size : Nat
  lrnvals : List Int
  index : Nat
  count : Nat
  moving_average : ℚ
  deriving DecidableEq

/-- init_trend_tracker from trend.c: calloc'd window of TREND_WINDOW_SIZE. -/
def init_trend_tracker : LearningTrendTracker :=
  ⟨TREND_WINDOW_SIZE, List.replicate TREND_WINDOW_SIZE 0, 0, 0, 0⟩

/-- Buffer position of the i-th most recent sample: idx = index - 1 - i,
normalized into [0, window_size) by the while loop. -/
def sampleIdx (t : LearningTrendTracker) (i : Nat) : Nat :=
  (((t.index : Int) - 1 - (i : Int)) % (t.window_size : Int)).toNat

/-- compute_average from trend.c: mean of the first count entries. -/
def compute_average (t : LearningTrendTracker) : ℚ :=
  if t.count = 0 then 0
  else ((((List.range t.count).map (fun i => t.lrnvals.getD i 0)).sum : Int) : ℚ) / t.count

/-- compute_recent_avg from trend.c: mean of the last k samples. -/
def compute_recent_avg (t : LearningTrendTracker) (k : Nat) : ℚ :=
  if k = 0 ∨ t.count = 0 then 0
  else ((((List.range k).map (fun i => t.lrnvals.getD (sampleIdx t i) 0)).sum : Int) : ℚ) /
    (k : ℚ)

/-- compute_prior_avg from trend.c: mean of the older samples, excluding the
last k_recent. -/
def compute_prior_avg (t : LearningTrendTracker) (k_recent : Nat) : ℚ :=
  if t.count - k_recent = 0 then 0
  else ((((List.range (t.count - k_recent)).map
      (fun j => t.lrnvals.getD (sampleIdx t (k_recent + j)) 0)).sum : Int) : ℚ) /
    ((t.count - k_recent : Nat) : ℚ)

/-- update_trend_tracker from trend.c. -/
def update_trend_tracker (t : LearningTrendTracker) (lrnval : Int) : LearningTrendTracker :=
  let t1 : LearningTrendTracker :=
    { t with lrnvals := t.lrnvals.set t.index lrnval,
             index := (t.index + 1) % t.window_size,
             count := if t.count < t.window_size then t.count + 1 else t.count }
  { t1 with moving_average := compute_average t1 }

/-- EPS from analyze_learning_trend. -/
def EPS : ℚ := 1 / 2

/-- analyze_learning_trend from trend.c: k_recent = count / 2 (integer
division, forced to at least 1), recent half-window mean against the prior
mean, with the ±EPS dead zone. -/
def analyze_learning_trend (t : LearningTrendTracker) : Int :=
  if t.count < 2 then 0
  else
    let k_recent0 := t.count / 2
    let k_recent := if k_recent0 = 0 then 1 else k_recent0
    let delta := compute_recent_avg t k_recent - compute_prior_avg t k_recent
    if delta > EPS then 1 else if delta < -EPS then -1 else 0

/-- Samples in most-recent-first order, as read through the circular buffer. -/
def recentSamples (t : LearningTrendTracker) : List Int :=
  (List.range t.count).map (fun i => t.lrnvals.getD (sampleIdx t i) 0)

/-- Modelled from the spec (claim C5): the verdict with k = ceil(n/2): 0 when
n < 2, else compare the mean of the most-recent k samples against the mean of
the remaining n - k, with the 1/2 dead zone. -/
def trendVerdictClaim (t : LearningTrendTracker) : Int :=
  if t.count < 2 then 0
  else
    let k : Nat := (t.count + 1) / 2
    let recent : ℚ := ((((recentSamples t).take k).sum : Int) : ℚ) / (k : ℚ)
    let prior : ℚ := ((((recentSamples t).drop k).sum : Int) : ℚ) / ((t.count - k : Nat) : ℚ)
    if recent - prior > 1 / 2 then 1 else if recent - prior < -(1 / 2) then -1 else 0

/-- The amended C5 verdict: identical to the claim except k = floor(n/2). -/
def trendVerdictAmended (t : LearningTrendTracker) : Int :=
  if t.count < 2 then 0
  else
    let k : Nat := t.count / 2
    let recent : ℚ := ((((recentSamples t).take k).sum : Int) : ℚ) / (k : ℚ)
    let prior : ℚ := ((((recentSamples t).drop k).sum : Int) : ℚ) / ((t.count - k : Nat) : ℚ)
    if recent - prior > 1 / 2 then 1 else if recent - prior < -(1 / 2) then -1 else 0

/-- C5 counterexample: pushing 0, 2, 1 gives fill 3; the code splits with
k = 1 (floor) and returns 0, while the claim's k = 2 (ceil) split yields +1. -/
theorem C5_counterexample :
    analyze_learning_trend (update_trend_tracker (update_trend_tracker
      (update_trend_tracker init_trend_tracker 0) 2) 1) = 0 ∧
    trendVerdictClaim (update_trend_tracker (update_trend_tracker
      (update_trend_tracker init_trend_tracker 0) 2) 1) = 1 := by
  with_unfolding_all decide

theorem recentSamples_take (t : LearningTrendTracker) (k : Nat) (hk : k ≤ t.count) :
    (recentSamples t).take k =
      (List.range k).map (fun i => t.lrnvals.getD (sampleIdx t i) 0) := by
  rw [recentSamples, ← List.map_take, List.take_range, Nat.min_eq_left hk]

theorem drop_len_append {α : Type} (A B : List α) (k : Nat) (h : A.length = k) :
    (A ++ B).drop k = B := by
  subst h
  exact List.drop_left A B

theorem recentSamples_drop (t : LearningTrendTracker) (k : Nat) (hk : k ≤ t.count) :
    (recentSamples t).drop k =
      (List.range (t.count - k)).map (fun j => t.lrnvals.getD (sampleIdx t (k + j)) 0) := by
  have hsplit : t.count = k + (t.count - k) := by omega
  rw [recentSamples]
  conv_lhs => rw [hsplit, List.range_add, List.map_append]
  rw [drop_len_append _ _ k (by simp), List.map_map]
  rfl

/-- C5 (amended): for every tracker state, verdict() returns 0 when the fill
count n is < 2; otherwise, with k = floor(n/2), it compares the mean of the
most-recent k samples against the mean of the remaining n - k samples and
returns +1 when the difference exceeds 1/2, -1 when it is below -1/2, and 0
otherwise. -/
theorem C5_trend_verdict (t : LearningTrendTracker) :
    analyze_learning_trend t = trendVerdictAmended t := by
  rw [analyze_learning_trend, trendVerdictAmended]
  by_cases h2 : t.count < 2
  · rw [if_pos h2, if_pos h2]
  · rw [if_neg h2, if_neg h2]
    simp only []
    have hk0 : ¬ t.count / 2 = 0 := by omega
    rw [if_neg hk0]
    have hkc : t.count / 2 ≤ t.count := Nat.div_le_self _ _
    have hrec : compute_recent_avg t (t.count / 2) =
        ((((recentSamples t).take (t.count / 2)).sum : Int) : ℚ) / ((t.count / 2 : Nat) : ℚ) := by
      rw [compute_recent_avg, if_neg (not_or.mpr ⟨hk0, by omega⟩),
          recentSamples_take t _ hkc]
    have hpri : compute_prior_avg t (t.count / 2) =
        ((((recentSamples t).drop (t.count / 2)).sum : Int) : ℚ) /
          ((t.count - t.count / 2 : Nat) : ℚ) := by
      rw [compute_prior_avg, if_neg (by omega : ¬ t.count - t.count / 2 = 0),
          recentSamples_drop t _ hkc]
    rw [hrec, hpri, EPS]

/-! Persistence, from src/database.c.  The byte encodings (decimal integers,
tabs, newlines) are out of scope per the spec; files are modelled as the
sequences of records they carry: token lines, assoc rows, observation rows. -/

/-- init_words from database.c: empty vocabulary, default association map. -/
def init_words : Words := ⟨[], assoc_init 0⟩

/-- init_observations from database.c. -/
def init_observations : Observations := ⟨[]⟩

/-- write_tokens_file: one line per (non-null) token, in order. -/
def write_tokens_file (w : Words) : List (List Char) := w.token

/-- load_tokens: skip empty lines, deduplicate with find_token_index_unlocked,
append new tokens. -/
def load_tokens (w : Words) (lines : List (List Char)) : Words :=
  lines.foldl (fun acc line =>
    if line = [] then acc
    else if find_token_index acc.token line < 0 then
      { acc with token := acc.token ++ [line] }
    else acc) w

/-- write_assoc_file: one row i, pi, k, pk, value per entry, in iteration
order. -/
def write_assoc_file (w : Words) : List (Int × Int × Int × Int × Int) :=
  (allEntries w.assoc).map (fun e => (e.i, e.pi, e.k, e.pk, e.val))

/-- load_values: assoc_add for each row. -/
def load_values (w : Words) (rows : List (Int × Int × Int × Int × Int)) : Words :=
  ⟨w.token,
   rows.foldl (fun a r => assoc_add a r.1 r.2.1 r.2.2.1 r.2.2.2.1 r.2.2.2.2) w.assoc⟩

/-- write_obs_file: each row's indices up to the terminator, followed by the
terminator. -/
def write_obs_file (o : Observations) : List (List Int) :=
  o.entries.map (fun row => row.takeWhile (fun x => x != IDX_TERMINATOR) ++ [IDX_TERMINATOR])

/-- load_observations: skip empty rows, re-append the terminator when the last
parsed value is not already the terminator, append in order. -/
def load_observations (o : Observations) (rows : List (List Int)) : Observations :=
  rows.foldl (fun acc row =>
    if row = [] then acc
    else { acc with entries := acc.entries ++
      [if row.getLast? = some IDX_TERMINATOR then row else row ++ [IDX_TERMINATOR]] }) o

/-- write_database from database.c, at the record level. -/
def write_database (w : Words) (o : Observations) :
    List (List Char) × List (Int × Int × Int × Int × Int) × List (List Int) :=
  (write_tokens_file w, write_assoc_file w, write_obs_file o)

/-- load_database from database.c: tokens, then assoc rows, then
observations. -/
def load_database (w : Words) (o : Observations) (tokens : List (List Char))
    (assocRows : List (Int × Int × Int × Int × Int)) (obsRows : List (List Int)) :
    Words × Observations :=
  (load_values (load_tokens w tokens) assocRows, load_observations o obsRows)

/-! find_token_index characterization. -/

theorem find_token_indexAux_not_mem (ws : List (List Char)) (t : List Char)
    (h : t ∉ ws) : ∀ acc, find_token_indexAux ws t acc = -1 := by
  induction ws with
  | nil => intro acc; rfl
  | cons w ws ih =>
    intro acc
    have hw : ¬ w = t := by
      intro hc
      exact h (hc ▸ List.mem_cons_self w ws)
    simp only [find_token_indexAux, if_neg hw]
    exact ih (fun hm => h (List.mem_cons_of_mem w hm)) (acc + 1)

theorem find_token_indexAux_mem (ws : List (List Char)) (t : List Char)
    (h : t ∈ ws) : ∀ acc, 0 ≤ find_token_indexAux ws t acc := by
  induction ws with
  | nil => intro acc; simp at h
  | cons w ws ih =>
    intro acc
    by_cases hw : w = t
    · simp only [find_token_indexAux, if_pos hw]
      exact Int.natCast_nonneg acc
    · simp only [find_token_indexAux, if_neg hw]
      rcases List.mem_cons.mp h with hc | hm
      · exact absurd hc.symm hw
      · exact ih hm (acc + 1)

theorem find_token_index_neg_iff (ws : List (List Char)) (t : List Char) :
    find_token_index ws t < 0 ↔ t ∉ ws := by
  constructor
  · intro hlt hm
    have := find_token_indexAux_mem ws t hm 0
    rw [find_token_index] at hlt
    omega
  · intro hnm
    rw [find_token_index, find_token_indexAux_not_mem ws t hnm 0]
    omega

/-! Token round trip. -/

theorem load_tokens_cons (acc : Words) (l : List Char) (ls : List (List Char)) :
    load_tokens acc (l :: ls) =
      load_tokens (if l = [] then acc
        else if find_token_index acc.token l < 0 then
          { acc with token := acc.token ++ [l] }
        else acc) ls := rfl

theorem load_tokens_all (lines : List (List Char)) :
    ∀ acc : Words, (acc.token ++ lines).Nodup → (∀ t ∈ lines, t ≠ []) →
      (load_tokens acc lines).token = acc.token ++ lines ∧
      (load_tokens acc lines).assoc = acc.assoc := by
  induction lines with
  | nil =>
    intro acc _ _
    exact ⟨(List.append_nil _).symm, rfl⟩
  | cons l ls ih =>
    intro acc hnd hne
    have hl : ¬ l = [] := hne l (List.mem_cons_self l ls)
    have hnm : l ∉ acc.token := by
      intro hm
      rcases List.nodup_append.mp hnd with ⟨_, _, hdisj⟩
      exact hdisj hm (List.mem_cons_self l ls)
    rw [load_tokens_cons, if_neg hl,
        if_pos ((find_token_index_neg_iff acc.token l).mpr hnm)]
    have hstep := ih { acc with token := acc.token ++ [l] }
      (by
        show ((acc.token ++ [l]) ++ ls).Nodup
        rw [List.append_assoc]
        exact hnd)
      (fun t ht => hne t (List.mem_cons_of_mem l ht))
    refine ⟨?_, hstep.2⟩
    rw [hstep.1]
    show (acc.token ++ [l]) ++ ls = acc.token ++ l :: ls
    rw [List.append_assoc]
    rfl

/-! Association round trip. -/

theorem load_values_eq_addAll (w : Words) (rows : List (Int × Int × Int × Int × Int)) :
    (load_values w rows).assoc =
      addAll w.assoc (rows.map (fun r => ⟨r.1, r.2.1, r.2.2.1, r.2.2.2.1, r.2.2.2.2⟩)) := by
  rw [load_values, addAll, List.foldl_map]

theorem map_quint_entry (es : List AssocEntry) :
    (es.map (fun e => ((e.i, e.pi, e.k, e.pk, e.val) : Int × Int × Int × Int × Int))).map
      (fun r => (⟨r.1, r.2.1, r.2.2.1, r.2.2.2.1, r.2.2.2.2⟩ : AssocEntry)) = es := by
  rw [List.map_map]
  exact List.map_id es

theorem assoc_get_of_mem (a : Assoc) (h : AssocWF a) (e : AssocEntry)
    (he : e ∈ allEntries a) :
    assoc_get a e.i e.pi e.k e.pk = e.val := by
  rw [assoc_get_eq_flatten _ h.len_eq h.pos h.placed, chainGet_eq_filter,
      filter_key_eq_single (allEntries a) h.distinct e he e.i e.pi e.k e.pk rfl]

theorem assoc_get_of_not_mem (a : Assoc) (h : AssocWF a) (i pi k pk : Int)
    (hnm : ∀ e ∈ allEntries a, keyOf e ≠ (i, pi, k, pk)) :
    assoc_get a i pi k pk = 0 := by
  rw [assoc_get_eq_flatten _ h.len_eq h.pos h.placed]
  exact chainGet_eq_zero _ _ _ _ _ hnm

/-! Observation round trip. -/

theorem takeWhile_append_term (c : List Int) (hc : ∀ x ∈ c, x ≠ IDX_TERMINATOR) :
    (c ++ [IDX_TERMINATOR]).takeWhile (fun x => x != IDX_TERMINATOR) = c := by
  induction c with
  | nil => simp [List.takeWhile, IDX_TERMINATOR]
  | cons x xs ih =>
    rw [List.cons_append, List.takeWhile_cons, if_pos (by
      simp only [bne_iff_ne, ne_eq]
      exact hc x (List.mem_cons_self x xs))]
    rw [ih (fun y hy => hc y (List.mem_cons_of_mem x hy))]

theorem load_observations_cons (acc : Observations) (row : List Int)
    (rest : List (List Int)) :
    load_observations acc (row :: rest) =
      load_observations (if row = [] then acc
        else { acc with entries := acc.entries ++
          [if row.getLast? = some IDX_TERMINATOR then row else row ++ [IDX_TERMINATOR]] })
        rest := rfl

theorem load_observations_all (rows : List (List Int)) :
    ∀ acc : Observations,
      (∀ row ∈ rows, row ≠ [] ∧ row.getLast? = some IDX_TERMINATOR) →
      (load_observations acc rows).entries = acc.entries ++ rows := by
  induction rows with
  | nil =>
    intro acc _
    exact (List.append_nil _).symm
  | cons row rest ih =>
    intro acc hrows
    obtain ⟨hne, hlast⟩ := hrows row (List.mem_cons_self row rest)
    rw [load_observations_cons, if_neg hne, if_pos hlast]
    have hstep := ih { acc with entries := acc.entries ++ [row] }
      (fun r hr => hrows r (List.mem_cons_of_mem row hr))
    rw [hstep]
    show (acc.entries ++ [row]) ++ rest = acc.entries ++ row :: rest
    rw [List.append_assoc]
    rfl

theorem map_takeWhile_term (rows : List (List Int))
    (h : ∀ row ∈ rows, ∃ c, row = c ++ [IDX_TERMINATOR] ∧ ∀ x ∈ c, x ≠ IDX_TERMINATOR) :
    rows.map (fun row => row.takeWhile (fun x => x != IDX_TERMINATOR) ++ [IDX_TERMINATOR]) =
      rows := by
  induction rows with
  | nil => rfl
  | cons row rest ih =>
    obtain ⟨c, hc, hcx⟩ := h row (List.mem_cons_self row rest)
    rw [List.map_cons, ih (fun r hr => h r (List.mem_cons_of_mem row hr)), hc,
        takeWhile_append_term c hcx]

/-- C6: for every vocabulary, association map and observation log in their
maintained well-formed states, saving to disk and loading into fresh empty
stores yields the same numWords, the same tokens, the same set of non-zero
association entries with the same values (stated as: equal assoc_get at every
key, with the loaded store again well-formed and storing no zero entries), and
the same ordered observation set. -/
theorem C6_persistence_round_trip (w : Words) (o : Observations)
    (hwf : AssocWF w.assoc) (hnd : w.token.Nodup) (hne : ∀ t ∈ w.token, t ≠ [])
    (hrows : ∀ row ∈ o.entries, ∃ c, row = c ++ [IDX_TERMINATOR] ∧
      ∀ x ∈ c, x ≠ IDX_TERMINATOR) :
    (load_database init_words init_observations (write_database w o).1
        (write_database w o).2.1 (write_database w o).2.2).1.token = w.token ∧
    (∀ i pi k pk : Int,
      assoc_get (load_database init_words init_observations (write_database w o).1
        (write_database w o).2.1 (write_database w o).2.2).1.assoc i pi k pk =
      assoc_get w.assoc i pi k pk) ∧
    AssocWF (load_database init_words init_observations (write_database w o).1
        (write_database w o).2.1 (write_database w o).2.2).1.assoc ∧
    (load_database init_words init_observations (write_database w o).1
        (write_database w o).2.1 (write_database w o).2.2).2.entries = o.entries := by
  have htok := load_tokens_all w.token init_words (by simpa [init_words] using hnd)
    (fun t ht => hne t ht)
  have hL1 : (load_database init_words init_observations (write_database w o).1
      (write_database w o).2.1 (write_database w o).2.2).1 =
      load_values (load_tokens init_words w.token) (write_assoc_file w) := rfl
  have hL2 : (load_database init_words init_observations (write_database w o).1
      (write_database w o).2.1 (write_database w o).2.2).2 =
      load_observations init_observations (write_obs_file o) := rfl
  have hassoc : (load_values (load_tokens init_words w.token) (write_assoc_file w)).assoc =
      addAll (assoc_init 0) (allEntries w.assoc) := by
    rw [load_values_eq_addAll, htok.2, write_assoc_file, map_quint_entry]
    rfl
  refine ⟨?_, ?_, ?_, ?_⟩
  · rw [hL1]
    show (load_tokens init_words w.token).token = w.token
    rw [htok.1]
    rfl
  · intro i pi k pk
    rw [hL1, hassoc, assoc_get_addAll _ _ (assocWF_init 0)]
    have hinit : assoc_get (assoc_init 0) i pi k pk = 0 := by
      rw [assoc_get_eq_flatten _ (assocWF_init 0).len_eq (assocWF_init 0).pos
        (assocWF_init 0).placed]
      apply chainGet_eq_zero
      intro e he
      exfalso
      simp only [allEntries, assoc_init] at he
      rw [List.flatten_eq_nil_iff.mpr (fun l hl => List.eq_of_mem_replicate hl)] at he
      simp at he
    rw [hinit, zero_add]
    by_cases hmem : ∃ e ∈ allEntries w.assoc, keyOf e = (i, pi, k, pk)
    · obtain ⟨e, he, hk⟩ := hmem
      rw [filter_map_val_single _ hwf.distinct e he i pi k pk hk]
      have hget := assoc_get_of_mem w.assoc hwf e he
      obtain ⟨h1, h2, h3, h4⟩ : e.i = i ∧ e.pi = pi ∧ e.k = k ∧ e.pk = pk := by
        simpa [keyOf, Prod.ext_iff] using hk
      rw [h1, h2, h3, h4] at hget
      exact hget.symm
    · push_neg at hmem
      rw [filter_map_val_nil _ i pi k pk hmem]
      exact (assoc_get_of_not_mem w.assoc hwf i pi k pk hmem).symm
  · rw [hL1, hassoc]
    exact assocWF_addAll _ _ (assocWF_init 0)
  · rw [hL2]
    have hwid : write_obs_file o = o.entries := by
      rw [write_obs_file]
      exact map_takeWhile_term o.entries hrows
    rw [hwid, load_observations_all o.entries init_observations ?_]
    · rfl
    · intro row hr
      obtain ⟨c, hc, _⟩ := hrows row hr
      subst hc
      constructor
      · simp
      · simp

/-- A concrete two-token store with one association entry, for exercising the
persistence round trip. -/
def c6w : Words := ⟨[['a'], ['b']], assoc_add (assoc_init 1) 0 0 1 1 5⟩

/-- A concrete observation log holding one terminated line. -/
def c6o : Observations := ⟨[[0, 1, -1]]⟩

/-- C6 witness: the round trip at a concrete two-token vocabulary with one
non-zero association entry and one stored observation. -/
theorem C6_persistence_round_trip_witness :
    (AssocWF c6w.assoc ∧ c6w.token.Nodup ∧ (∀ t ∈ c6w.token, t ≠ []) ∧
      (∀ row ∈ c6o.entries, ∃ c, row = c ++ [IDX_TERMINATOR] ∧
        ∀ x ∈ c, x ≠ IDX_TERMINATOR)) ∧
    (load_database init_words init_observations (write_database c6w c6o).1
        (write_database c6w c6o).2.1 (write_database c6w c6o).2.2).1.token = c6w.token ∧
    assoc_get (load_database init_words init_observations (write_database c6w c6o).1
        (write_database c6w c6o).2.1 (write_database c6w c6o).2.2).1.assoc 0 0 1 1 =
      assoc_get c6w.assoc 0 0 1 1 ∧
    (load_database init_words init_observations (write_database c6w c6o).1
        (write_database c6w c6o).2.1 (write_database c6w c6o).2.2).2.entries =
      c6o.entries := by
  have hwf : AssocWF c6w.assoc := assocWF_add (assoc_init 1) (assocWF_init 1) 0 0 1 1 5
  have hnd : c6w.token.Nodup := by decide
  have hne : ∀ t ∈ c6w.token, t ≠ [] := by decide
  have hrows : ∀ row ∈ c6o.entries, ∃ c, row = c ++ [IDX_TERMINATOR] ∧
      ∀ x ∈ c, x ≠ IDX_TERMINATOR := by
    intro row hr
    simp only [c6o] at hr
    rw [List.mem_singleton] at hr
    subst hr
    exact ⟨[0, 1], rfl, by decide⟩
  have h := C6_persistence_round_trip c6w c6o hwf hnd hne hrows
  exact ⟨⟨hwf, hnd, hne, hrows⟩, h.1, h.2.1 0 0 1 1, h.2.2.2⟩

/-! The executor's poll-read loop, from execute_command in src/exec.c.  Each
iteration of the `for (;;)` loop is abstracted as a tick carrying what that
pass observes: the child status reported by check_child_status (exited,
running, or a waitpid error) and whether the escalation condition
(over_time || termination_requested) holds this pass.  The loop's wall-clock
reads and pipe reads do not affect which signals are sent, so they are not
modelled; the result is the sequence of signals sent to the process group
together with how the loop ends. -/

inductive ChildStatus where
  | running : ChildStatus
  | exited : ChildStatus
  | error : ChildStatus
  deriving DecidableEq

structure ExecTick where
  cs : ChildStatus
  escalate : Bool
  deriving DecidableEq

inductive ExecSignal where
  | sigterm : ExecSignal
  | sigkill : ExecSignal
  deriving DecidableEq

inductive ExecOutcome where
  | success : ExecOutcome
  | failure : ExecOutcome
  | spinning : ExecOutcome
  deriving DecidableEq

/-- One iteration of execute_command's loop per tick, carrying kill_stage
(0: normal, 1: sent SIGTERM, 2..: sent SIGKILLs): check_child_status first
(error returns NULL, exited sets finished and skips escalation), then the
escalation ladder, then `if (finished) break`.  An exhausted tick list means
the loop is still polling. -/
def exec_poll_loop (stage : Nat) : List ExecTick → List ExecSignal × ExecOutcome
  | [] => ([], ExecOutcome.spinning)
  | t :: ts =>
    match t.cs with
    | ChildStatus.error => ([], ExecOutcome.failure)
    | ChildStatus.exited => ([], ExecOutcome.success)
    | ChildStatus.running =>
      if t.escalate then
        if stage = 0 then
          let r := exec_poll_loop 1 ts
          (ExecSignal.sigterm :: r.1, r.2)
        else if stage ≤ KILL_ATTEMPTS then
          let r := exec_poll_loop (stage + 1) ts
          (ExecSignal.sigkill :: r.1, r.2)
        else ([], ExecOutcome.failure)
      else exec_poll_loop stage ts

theorem exec_poll_loop_kill_only (ticks : List ExecTick) :
    ∀ stage, 1 ≤ stage →
      ∃ m, (exec_poll_loop stage ticks).1 = List.replicate m ExecSignal.sigkill ∧
        (1 ≤ m → stage + m ≤ KILL_ATTEMPTS + 1) := by
  induction ticks with
  | nil =>
    intro stage _
    exact ⟨0, rfl, by omega⟩
  | cons t ts ih =>
    intro stage h1
    rw [exec_poll_loop]
    cases hcs : t.cs with
    | error => exact ⟨0, rfl, by omega⟩
    | exited => exact ⟨0, rfl, by omega⟩
    | running =>
      by_cases hesc : t.escalate
      · rw [if_pos hesc, if_neg (by omega : ¬ stage = 0)]
        by_cases hle : stage ≤ KILL_ATTEMPTS
        · rw [if_pos hle]
          obtain ⟨m, hm, hb⟩ := ih (stage + 1) (by omega)
          refine ⟨m + 1, ?_, ?_⟩
          · show ExecSignal.sigkill :: (exec_poll_loop (stage + 1) ts).1 = _
            rw [hm, List.replicate_succ]
          · intro _
            rcases Nat.eq_zero_or_pos m with hz | hp
            · omega
            · have := hb hp
              omega
        · rw [if_neg hle]
          exact ⟨0, rfl, by omega⟩
      · rw [if_neg hesc]
        exact ih stage h1

theorem exec_poll_loop_pattern (ticks : List ExecTick) :
    (exec_poll_loop 0 ticks).1 = [] ∨
      ∃ m, m ≤ KILL_ATTEMPTS ∧
        (exec_poll_loop 0 ticks).1 =
          ExecSignal.sigterm :: List.replicate m ExecSignal.sigkill := by
  induction ticks with
  | nil => exact Or.inl rfl
  | cons t ts ih =>
    rw [exec_poll_loop]
    cases hcs : t.cs with
    | error => exact Or.inl rfl
    | exited => exact Or.inl rfl
    | running =>
      by_cases hesc : t.escalate
      · rw [if_pos hesc, if_pos rfl]
        obtain ⟨m, hm, hb⟩ := exec_poll_loop_kill_only ts 1 (by omega)
        refine Or.inr ⟨m, ?_, ?_⟩
        · rcases Nat.eq_zero_or_pos m with hz | hp
          · omega
          · have := hb hp
            omega
        · show ExecSignal.sigterm :: (exec_poll_loop 1 ts).1 = _
          rw [hm]
      · rw [if_neg hesc]
        exact ih

/-- C7: in the executor's poll-read loop, whenever the child is unfinished and
the escalation condition (over RUNTIME seconds elapsed, or the termination
flag) holds, the escalation sequence is: at kill_stage 0 the process group is
signalled with SIGTERM; at each of stages 1 through KILL_ATTEMPTS it is
signalled with SIGKILL; past the last stage the loop returns failure.  Over
any run from stage 0, SIGKILL is never sent before SIGTERM: the signal trace
is empty or SIGTERM followed by at most KILL_ATTEMPTS SIGKILLs. -/
theorem C7_exec_escalation (t : ExecTick) (ts ticks : List ExecTick)
    (hrun : t.cs = ChildStatus.running) (hesc : t.escalate = true) :
    (exec_poll_loop 0 (t :: ts)).1.head? = some ExecSignal.sigterm ∧
    (∀ stage, 1 ≤ stage → stage ≤ KILL_ATTEMPTS →
      (exec_poll_loop stage (t :: ts)).1.head? = some ExecSignal.sigkill) ∧
    exec_poll_loop (KILL_ATTEMPTS + 1) (t :: ts) = ([], ExecOutcome.failure) ∧
    ((exec_poll_loop 0 ticks).1 = [] ∨
      ∃ m, m ≤ KILL_ATTEMPTS ∧
        (exec_poll_loop 0 ticks).1 =
          ExecSignal.sigterm :: List.replicate m ExecSignal.sigkill) ∧
    (ExecSignal.sigkill ∈ (exec_poll_loop 0 ticks).1 →
      (exec_poll_loop 0 ticks).1.head? = some ExecSignal.sigterm) := by
  have hstep : ∀ stage, exec_poll_loop stage (t :: ts) =
      if stage = 0 then
        (ExecSignal.sigterm :: (exec_poll_loop 1 ts).1, (exec_poll_loop 1 ts).2)
      else if stage ≤ KILL_ATTEMPTS then
        (ExecSignal.sigkill :: (exec_poll_loop (stage + 1) ts).1,
          (exec_poll_loop (stage + 1) ts).2)
      else ([], ExecOutcome.failure) := by
    intro stage
    rw [exec_poll_loop]
    rw [show (match t.cs with
        | ChildStatus.error => ([], ExecOutcome.failure)
        | ChildStatus.exited => ([], ExecOutcome.success)
        | ChildStatus.running =>
          if t.escalate then
            if stage = 0 then
              let r := exec_poll_loop 1 ts
              (ExecSignal.sigterm :: r.1, r.2)
            else if stage ≤ KILL_ATTEMPTS then
              let r := exec_poll_loop (stage + 1) ts
              (ExecSignal.sigkill :: r.1, r.2)
            else ([], ExecOutcome.failure)
          else exec_poll_loop stage ts) =
        (if t.escalate then
          if stage = 0 then
            (ExecSignal.sigterm :: (exec_poll_loop 1 ts).1, (exec_poll_loop 1 ts).2)
          else if stage ≤ KILL_ATTEMPTS then
            (ExecSignal.sigkill :: (exec_poll_loop (stage + 1) ts).1,
              (exec_poll_loop (stage + 1) ts).2)
          else ([], ExecOutcome.failure)
        else exec_poll_loop stage ts) from by rw [hrun]]
    rw [hesc]
    rfl
  refine ⟨?_, ?_, ?_, exec_poll_loop_pattern ticks, ?_⟩
  · rw [hstep 0, if_pos rfl]
    rfl
  · intro stage hs1 hs2
    rw [hstep stage, if_neg (by omega), if_pos hs2]
    rfl
  · rw [hstep (KILL_ATTEMPTS + 1), if_neg (by omega), if_neg (by omega)]
  · intro hmem
    rcases exec_poll_loop_pattern ticks with hnil | ⟨m, _, hpat⟩
    · rw [hnil] at hmem
      simp at hmem
    · rw [hpat]
      rfl

/-- C7 witness: a tick where the child is running with the escalation
condition raised, and a four-tick runaway child: SIGTERM first, SIGKILL at
stages 1..3, failure past the last stage, and the full trace from stage 0 is
SIGTERM followed by three SIGKILLs. -/
theorem C7_exec_escalation_witness :
    ((ExecTick.mk ChildStatus.running true).cs = ChildStatus.running ∧
      (ExecTick.mk ChildStatus.running true).escalate = true) ∧
    ((exec_poll_loop 0 (ExecTick.mk ChildStatus.running true ::
        List.replicate 3 (ExecTick.mk ChildStatus.running true))).1.head? =
      some ExecSignal.sigterm ∧
    (∀ stage, 1 ≤ stage → stage ≤ KILL_ATTEMPTS →
      (exec_poll_loop stage (ExecTick.mk ChildStatus.running true ::
        List.replicate 3 (ExecTick.mk ChildStatus.running true))).1.head? =
      some ExecSignal.sigkill) ∧
    exec_poll_loop (KILL_ATTEMPTS + 1) (ExecTick.mk ChildStatus.running true ::
        List.replicate 3 (ExecTick.mk ChildStatus.running true)) =
      ([], ExecOutcome.failure) ∧
    ((exec_poll_loop 0 (List.replicate 5 (ExecTick.mk ChildStatus.running true))).1 = [] ∨
      ∃ m, m ≤ KILL_ATTEMPTS ∧
        (exec_poll_loop 0 (List.replicate 5 (ExecTick.mk ChildStatus.running true))).1 =
          ExecSignal.sigterm :: List.replicate m ExecSignal.sigkill) ∧
    (ExecSignal.sigkill ∈
        (exec_poll_loop 0 (List.replicate 5 (ExecTick.mk ChildStatus.running true))).1 →
      (exec_poll_loop 0 (List.replicate 5 (ExecTick.mk ChildStatus.running true))).1.head? =
        some ExecSignal.sigterm)) :=
  ⟨⟨rfl, rfl⟩,
   C7_exec_escalation (ExecTick.mk ChildStatus.running true)
     (List.replicate 3 (ExecTick.mk ChildStatus.running true))
     (List.replicate 5 (ExecTick.mk ChildStatus.running true)) rfl rfl⟩

end Amoeba
